import Mathlib

/-!
Shallow embedding of the minibrew incremental build engine
(src/minibrewlib.py), covering:

* the source / build-step descriptors and their `getKey` fingerprint
  strings (classes `Git`, `TarBall`, `CombinedStep`, `SwitchOnPlatform`,
  `ConfigureAndMake`, `CopyInclude`, `MSBuild`);
* the install ledger (`_installJson`, an assoc map name -> fingerprint);
* the package graph: Python `Package` objects are identified by node ids
  (`Nat`), because the `seen` dictionary of `_walkDepTree` keys packages
  by object identity (the class defines no `__eq__`/`__hash__`); a
  `Store` gives each id its `name`, `source`, `buildStep` and the ids of
  its `dependencies`;
* the memoized dependency walk `Package._walkDepTree` (fuel-indexed: the
  fuel bounds the Python recursion depth, `none` models running out of
  stack, and a sufficient fuel bound is proved);
* the orchestration loop of `Package.install` (fetch, build, ledger
  update, save), with fetch/build outcomes supplied as oracles since the
  real ones shell out to external tools;
* the registration front end `pkg` and the module-level `packageMap`.
-/

namespace Minibrew

/-- Python `repr` of a string, as used in `Git.getKey`
(`repr(self.repository)`): quotes around the text.  Escape sequences are
not modeled; inputs are assumed free of quote/backslash characters, as
all repository URLs in the repository are. -/
def pyRepr (s : String) : String := "'" ++ s ++ "'"

/-- `",".join(items)` from Python, as used by the `getKey` methods. -/
def joinComma : List String → String
  | [] => ""
  | [x] => x
  | x :: y :: ys => x ++ "," ++ joinComma (y :: ys)

/-- Source descriptors: `class Git(Source)` and `class TarBall(Source)`. -/
inductive Source where
  | git (repository : String) (commit : String)
  | tarBall (url : String) (sha256 : String)
deriving DecidableEq

/-- `Source.getKey`: `Git` formats
`f"{type(self).__name__}({repr(self.repository)},{self.commit})"`,
`TarBall` formats `f"{type(self).__name__}({self.url},{self.sha256})"`. -/
def Source.getKey : Source → String
  | .git repository commit => "Git(" ++ pyRepr repository ++ "," ++ commit ++ ")"
  | .tarBall url sha256 => "TarBall(" ++ url ++ "," ++ sha256 ++ ")"

/-- Build-step descriptors: the concrete `BuildStep` subclasses. -/
inductive BuildStep where
  | combinedStep (steps : List BuildStep)
  | switchOnPlatform (unix : BuildStep) (windows : BuildStep)
  | configureAndMake (additionalConfigureFlags : List String)
  | copyInclude (relativeIncludePath : String)
  | msbuild (relativeProjectPath : String)

mutual

/-- `BuildStep.getKey` for each subclass, following the `f"..."` format
strings in the source; composite variants derive their key from their
children's keys. -/
def BuildStep.getKey : BuildStep → String
  | .combinedStep steps =>
      "CombinedStep(" ++ joinComma (BuildStep.getKeyList steps) ++ ")"
  | .switchOnPlatform unix windows =>
      "SwitchOnPlatform(" ++ unix.getKey ++ "," ++ windows.getKey ++ ")"
  | .configureAndMake additionalConfigureFlags =>
      "ConfigureAndMake(" ++ joinComma additionalConfigureFlags ++ ")"
  | .copyInclude relativeIncludePath =>
      "CopyInclude(" ++ relativeIncludePath ++ ")"
  | .msbuild relativeProjectPath =>
      "MSBuild(" ++ relativeProjectPath ++ ")"

/-- The keys of a `CombinedStep`'s children
(`s.getKey() for s in self.steps`). -/
def BuildStep.getKeyList : List BuildStep → List String
  | [] => []
  | s :: rest => BuildStep.getKey s :: BuildStep.getKeyList rest

end

/-- `Package.getKey`:
`f"{self.source.getKey()},{self.buildStep.getKey()}"`. -/
def packageKey (source : Source) (buildStep : BuildStep) : String :=
  source.getKey ++ "," ++ buildStep.getKey

/-- The install ledger `_installJson`: a mapping from package name to the
fingerprint last installed.  Modeled as an assoc list where a fresh
binding is consed on and lookup takes the first match, which is
observationally the Python dict. -/
abbrev Ledger := List (String × String)

/-- `_installJson.get(name, None)`. -/
def ledgerGet : Ledger → String → Option String
  | [], _ => none
  | (k, v) :: rest, n => if k = n then some v else ledgerGet rest n

/-- `_installJson[name] = key`. -/
def ledgerSet (l : Ledger) (n v : String) : Ledger := (n, v) :: l

/-- The package graph: node ids stand for Python `Package` objects
(identity-based), and the store gives each id its fields. -/
structure Store where
  name : Nat → String
  source : Nat → Source
  buildStep : Nat → BuildStep
  deps : Nat → List Nat

/-- `Package.getKey` on a graph node. -/
def Store.getKey (st : Store) (i : Nat) : String :=
  packageKey (st.source i) (st.buildStep i)

/-- `Package._isInstalled`:
`_installJson.get(self.name, None) == self.getKey()`. -/
def isInstalled (st : Store) (l : Ledger) (i : Nat) : Bool :=
  ledgerGet l (st.name i) == some (st.getKey i)

/-- The three mutable collections threaded through `_walkDepTree`:
the `seen` dictionary and the two output lists. -/
structure WalkState where
  seen : List (Nat × Bool)
  alreadyInstalled : List Nat
  needToInstall : List Nat
deriving DecidableEq

/-- Lookup in the `seen` dictionary (`seen[p]`, first binding wins;
re-assignment is modeled by consing a shadowing binding). -/
def lookupSeen : List (Nat × Bool) → Nat → Option Bool
  | [], _ => none
  | (k, v) :: rest, n => if k = n then some v else lookupSeen rest n

@[simp] theorem lookupSeen_nil (n : Nat) : lookupSeen [] n = none := rfl

@[simp] theorem lookupSeen_cons (k : Nat) (v : Bool) (t : List (Nat × Bool))
    (n : Nat) :
    lookupSeen ((k, v) :: t) n = if k = n then some v else lookupSeen t n := rfl

/-- The empty initial `WalkState` (`._walkDepTree({}, [], [])`). -/
def emptyWalkState : WalkState := ⟨[], [], []⟩

/-- The `for dep in self.dependencies` loop of `_walkDepTree`,
accumulating `depNeedsUpdating = dep._walkDepTree(...) or
depNeedsUpdating`; `w` is the recursive walk one level deeper. -/
def walkList (w : Nat → WalkState → Option (Bool × WalkState)) :
    List Nat → Bool → WalkState → Option (Bool × WalkState)
  | [], acc, s => some (acc, s)
  | d :: ds, acc, s =>
    match w d s with
    | none => none
    | some (b, s2) => walkList w ds (b || acc) s2

/-- `Package._walkDepTree(seen, alreadyInstalled, needToInstall)`.
The fuel bounds the recursion depth; `none` models exhausting it.  A node
not yet in `seen` is provisionally marked `False`, its dependencies are
walked in declared order accumulating `depNeedsUpdating`, and then the
node is classified: `AlreadyInstalled` (final mark `False`) when it is
installed and no dependency needs updating, else `NeedsInstall` (final
mark `True`); the final mark is returned. -/
def walkDepTree (st : Store) (l : Ledger) :
    Nat → Nat → WalkState → Option (Bool × WalkState)
  | 0, _, _ => none
  | fuel + 1, i, s =>
    match lookupSeen s.seen i with
    | some b => some (b, s)
    | none =>
      match walkList (walkDepTree st l fuel) (st.deps i)
          false { s with seen := (i, false) :: s.seen } with
      | none => none
      | some (depNeedsUpdating, s2) =>
        if isInstalled st l i && !depNeedsUpdating then
          some (false, { s2 with
            alreadyInstalled := s2.alreadyInstalled ++ [i],
            seen := (i, false) :: s2.seen })
        else
          some (true, { s2 with
            needToInstall := s2.needToInstall ++ [i],
            seen := (i, true) :: s2.seen })

/-- The intended classification, as a pure function: a node needs
installation when its fingerprint does not match the ledger or some
dependency needs installation.  Fuel-indexed; on graphs with a rank
function the fuel `rank i + 1` always suffices (`needsF_stable`). -/
def needsF (st : Store) (l : Ledger) : Nat → Nat → Bool
  | 0, _ => false
  | fuel + 1, i =>
    !(isInstalled st l i) || (st.deps i).any (fun d => needsF st l fuel d)

/-- The classification of node `i` on a graph ranked by `rank`. -/
def needs (st : Store) (l : Ledger) (rank : Nat → Nat) (i : Nat) : Bool :=
  needsF st l (rank i + 1) i

/-- A graph is acyclic when some rank strictly decreases along
dependency edges. -/
def Ranked (st : Store) (rank : Nat → Nat) : Prop :=
  ∀ a, ∀ d ∈ st.deps a, rank d < rank a

/-- Reachability along dependency edges, including the start node. -/
inductive Reach (st : Store) : Nat → Nat → Prop
  | refl (i : Nat) : Reach st i i
  | step {i j d : Nat} : Reach st i j → d ∈ st.deps j → Reach st i d

theorem Reach.trans {st : Store} {i j k : Nat}
    (h1 : Reach st i j) (h2 : Reach st j k) : Reach st i k := by
  induction h2 with
  | refl => exact h1
  | step _ hd ih => exact ih.step hd

theorem reach_split {st : Store} {i j : Nat} (h : Reach st i j) :
    j = i ∨ ∃ d ∈ st.deps i, Reach st d j := by
  induction h with
  | refl => exact Or.inl rfl
  | step _ hd ih =>
    rcases ih with rfl | ⟨e, he, hr⟩
    · exact Or.inr ⟨_, hd, Reach.refl _⟩
    · exact Or.inr ⟨e, he, hr.step hd⟩

theorem list_any_congr {α : Type} {p q : α → Bool} {l : List α}
    (h : ∀ a ∈ l, p a = q a) : l.any p = l.any q := by
  induction l with
  | nil => rfl
  | cons x xs ih =>
    simp only [List.any_cons, h x (List.mem_cons_self x xs),
      ih fun a ha => h a (List.mem_cons_of_mem x ha)]

/-- The value of `needsF` does not depend on the fuel once it exceeds
the node's rank. -/
theorem needsF_stable {st : Store} {l : Ledger} {rank : Nat → Nat}
    (hr : Ranked st rank) :
    ∀ f g i, rank i < f → rank i < g → needsF st l f i = needsF st l g i := by
  intro f
  induction f with
  | zero => omega
  | succ f ih =>
    intro g i hf hg
    match g, hg with
    | g + 1, _ =>
      simp only [needsF]
      congr 1
      refine list_any_congr fun d hd => ?_
      exact ih g d (by have := hr i d hd; omega) (by have := hr i d hd; omega)

/-- The defining fixed-point equation of the classification on an
acyclic graph. -/
theorem needs_eq {st : Store} {l : Ledger} {rank : Nat → Nat}
    (hr : Ranked st rank) (i : Nat) :
    needs st l rank i =
      (!(isInstalled st l i) || (st.deps i).any (fun d => needs st l rank d)) := by
  unfold needs
  rw [needsF]
  congr 1
  refine list_any_congr fun d hd => ?_
  exact needsF_stable hr (rank i) (rank d + 1) d (hr i d hd) (Nat.lt_succ_self _)

/-- Invariant tying a `WalkState` to the classification.  `P` is the
set of provisionally marked (in-progress) nodes, i.e. the recursion
stack; all other `seen` entries are final. -/
structure Inv (st : Store) (l : Ledger) (rank : Nat → Nat)
    (s : WalkState) (P : List Nat) : Prop where
  prov : ∀ j ∈ P, lookupSeen s.seen j = some false
  val : ∀ j b, lookupSeen s.seen j = some b → j ∉ P → b = needs st l rank j
  memN : ∀ j, lookupSeen s.seen j = some true → j ∉ P → j ∈ s.needToInstall
  memA : ∀ j, lookupSeen s.seen j = some false → j ∉ P → j ∈ s.alreadyInstalled
  seenN : ∀ j ∈ s.needToInstall, lookupSeen s.seen j = some true ∧ j ∉ P
  seenA : ∀ j ∈ s.alreadyInstalled, lookupSeen s.seen j = some false ∧ j ∉ P
  nodupN : s.needToInstall.Nodup
  nodupA : s.alreadyInstalled.Nodup
  closed : ∀ j, (lookupSeen s.seen j).isSome → j ∉ P →
    ∀ d ∈ st.deps j, (lookupSeen s.seen d).isSome ∧ d ∉ P
  order : ∀ a ∈ s.needToInstall, ∀ d ∈ st.deps a, d ∈ s.needToInstall →
    s.needToInstall.indexOf d < s.needToInstall.indexOf a

theorem inv_empty (st : Store) (l : Ledger) (rank : Nat → Nat) :
    Inv st l rank emptyWalkState [] := by
  constructor <;> simp [emptyWalkState, lookupSeen]

/-- Everything reachable from a finally-classified node is already
finally classified. -/
theorem reach_finished {st : Store} {l : Ledger} {rank : Nat → Nat}
    {s : WalkState} {P : List Nat} (hInv : Inv st l rank s P)
    {j k : Nat} (hr : Reach st j k)
    (hj : (lookupSeen s.seen j).isSome) (hjP : j ∉ P) :
    (lookupSeen s.seen k).isSome ∧ k ∉ P := by
  induction hr with
  | refl => exact ⟨hj, hjP⟩
  | step _ hd ih =>
    obtain ⟨h1, h2⟩ := ih
    exact hInv.closed _ h1 h2 _ hd

/-- Pushing the provisional in-progress mark `seen[self] = False`
preserves the invariant with `self` added to the stack. -/
theorem inv_push {st : Store} {l : Ledger} {rank : Nat → Nat}
    {s : WalkState} {P : List Nat} {i : Nat}
    (hInv : Inv st l rank s P) (hseen : lookupSeen s.seen i = none) :
    Inv st l rank
      ⟨(i, false) :: s.seen, s.alreadyInstalled, s.needToInstall⟩ (i :: P) := by
  have hne : ∀ j b, lookupSeen s.seen j = some b → ¬ j = i := by
    intro j b hj hji
    rw [hji, hseen] at hj
    exact Option.noConfusion hj
  constructor
  · intro j hj
    rcases List.mem_cons.mp hj with rfl | hj
    · simp
    · have hji := hne j false (hInv.prov j hj)
      simp only [lookupSeen_cons]
      rw [if_neg (fun h => hji h.symm)]
      exact hInv.prov j hj
  · intro j b hj hjP
    have hji : ¬ j = i := fun h => hjP (h ▸ List.mem_cons_self i P)
    rw [lookupSeen_cons, if_neg (fun h => hji h.symm)] at hj
    exact hInv.val j b hj (fun h => hjP (List.mem_cons_of_mem i h))
  · intro j hj hjP
    have hji : ¬ j = i := fun h => hjP (h ▸ List.mem_cons_self i P)
    rw [lookupSeen_cons, if_neg (fun h => hji h.symm)] at hj
    exact hInv.memN j hj (fun h => hjP (List.mem_cons_of_mem i h))
  · intro j hj hjP
    have hji : ¬ j = i := fun h => hjP (h ▸ List.mem_cons_self i P)
    rw [lookupSeen_cons, if_neg (fun h => hji h.symm)] at hj
    exact hInv.memA j hj (fun h => hjP (List.mem_cons_of_mem i h))
  · intro j hj
    obtain ⟨h1, h2⟩ := hInv.seenN j hj
    have hji := hne j true h1
    refine ⟨?_, ?_⟩
    · rw [lookupSeen_cons, if_neg (fun h => hji h.symm)]; exact h1
    · intro h
      rcases List.mem_cons.mp h with rfl | h
      · exact hji rfl
      · exact h2 h
  · intro j hj
    obtain ⟨h1, h2⟩ := hInv.seenA j hj
    have hji := hne j false h1
    refine ⟨?_, ?_⟩
    · rw [lookupSeen_cons, if_neg (fun h => hji h.symm)]; exact h1
    · intro h
      rcases List.mem_cons.mp h with rfl | h
      · exact hji rfl
      · exact h2 h
  · exact hInv.nodupN
  · exact hInv.nodupA
  · intro j hj hjP d hd
    have hji : ¬ j = i := fun h => hjP (h ▸ List.mem_cons_self i P)
    rw [lookupSeen_cons, if_neg (fun h => hji h.symm)] at hj
    obtain ⟨h1, h2⟩ :=
      hInv.closed j hj (fun h => hjP (List.mem_cons_of_mem i h)) d hd
    obtain ⟨b, hb⟩ := Option.isSome_iff_exists.mp h1
    have hdi := hne d b hb
    refine ⟨?_, ?_⟩
    · rw [lookupSeen_cons, if_neg (fun h => hdi h.symm)]
      exact Option.isSome_iff_exists.mpr ⟨b, hb⟩
    · intro h
      rcases List.mem_cons.mp h with rfl | h
      · exact hdi rfl
      · exact h2 h
  · exact hInv.order

/-- Final classification `NeedsInstall`: appending `self` to
`needToInstall` and marking `seen[self] = True` restores the invariant
with `self` popped off the stack. -/
theorem inv_pop_true {st : Store} {l : Ledger} {rank : Nat → Nat}
    {s2 : WalkState} {P : List Nat} {i : Nat}
    (hInv : Inv st l rank s2 (i :: P)) (hiP : i ∉ P)
    (hneeds : needs st l rank i = true)
    (hdeps : ∀ d ∈ st.deps i,
      lookupSeen s2.seen d = some (needs st l rank d) ∧ d ∉ i :: P) :
    Inv st l rank
      ⟨(i, true) :: s2.seen, s2.alreadyInstalled, s2.needToInstall ++ [i]⟩
      P := by
  have hiN : i ∉ s2.needToInstall := by
    intro h
    exact (hInv.seenN i h).2 (List.mem_cons_self i P)
  have hiA : i ∉ s2.alreadyInstalled := by
    intro h
    exact (hInv.seenA i h).2 (List.mem_cons_self i P)
  constructor
  · intro j hj
    have hji : ¬ j = i := fun h => hiP (h ▸ hj)
    rw [lookupSeen_cons, if_neg (fun h => hji h.symm)]
    exact hInv.prov j (List.mem_cons_of_mem i hj)
  · intro j b hj hjP
    by_cases hji : i = j
    · subst hji
      rw [lookupSeen_cons, if_pos rfl] at hj
      have hb : b = true := by injection hj with h; exact h.symm
      rw [hneeds, hb]
    · rw [lookupSeen_cons, if_neg hji] at hj
      refine hInv.val j b hj ?_
      intro h
      rcases List.mem_cons.mp h with rfl | h
      · exact hji rfl
      · exact hjP h
  · intro j hj hjP
    by_cases hji : i = j
    · subst hji
      exact List.mem_append_right _ (List.mem_singleton_self i)
    · rw [lookupSeen_cons, if_neg hji] at hj
      refine List.mem_append_left _ (hInv.memN j hj ?_)
      intro h
      rcases List.mem_cons.mp h with rfl | h
      · exact hji rfl
      · exact hjP h
  · intro j hj hjP
    by_cases hji : i = j
    · subst hji
      rw [lookupSeen_cons, if_pos rfl] at hj
      simp at hj
    · rw [lookupSeen_cons, if_neg hji] at hj
      refine hInv.memA j hj ?_
      intro h
      rcases List.mem_cons.mp h with rfl | h
      · exact hji rfl
      · exact hjP h
  · intro j hj
    rcases List.mem_append.mp hj with hj | hj
    · obtain ⟨h1, h2⟩ := hInv.seenN j hj
      have hji : ¬ j = i := fun h => h2 (h ▸ List.mem_cons_self i P)
      refine ⟨?_, fun h => h2 (List.mem_cons_of_mem i h)⟩
      rw [lookupSeen_cons, if_neg (fun h => hji h.symm)]
      exact h1
    · rcases List.mem_singleton.mp hj with rfl
      exact ⟨by rw [lookupSeen_cons, if_pos rfl], hiP⟩
  · intro j hj
    obtain ⟨h1, h2⟩ := hInv.seenA j hj
    have hji : ¬ j = i := fun h => h2 (h ▸ List.mem_cons_self i P)
    refine ⟨?_, fun h => h2 (List.mem_cons_of_mem i h)⟩
    rw [lookupSeen_cons, if_neg (fun h => hji h.symm)]
    exact h1
  · exact hInv.nodupN.append (List.nodup_singleton i)
      (fun a ha hai => hiN ((List.mem_singleton.mp hai) ▸ ha))
  · exact hInv.nodupA
  · intro j hj hjP d hd
    by_cases hji : i = j
    · subst hji
      obtain ⟨h1, h2⟩ := hdeps d hd
      have hdi : ¬ d = i := fun h => h2 (h ▸ List.mem_cons_self i P)
      refine ⟨?_, fun h => h2 (List.mem_cons_of_mem i h)⟩
      rw [lookupSeen_cons, if_neg (fun h => hdi h.symm), h1]
      rfl
    · rw [lookupSeen_cons, if_neg hji] at hj
      obtain ⟨h1, h2⟩ := hInv.closed j hj
        (fun h => (List.mem_cons.mp h).elim (fun h => hji h.symm) hjP) d hd
      obtain ⟨b, hb⟩ := Option.isSome_iff_exists.mp h1
      have hdi : ¬ d = i := fun h => h2 (h ▸ List.mem_cons_self i P)
      refine ⟨?_, fun h => h2 (List.mem_cons_of_mem i h)⟩
      rw [lookupSeen_cons, if_neg (fun h => hdi h.symm), hb]
      rfl
  · intro a ha d hd hdmem
    rcases List.mem_append.mp ha with ha | ha
    · have haP := (hInv.seenN a ha).2
      have hd2 := hInv.closed a
        (Option.isSome_iff_exists.mpr ⟨true, (hInv.seenN a ha).1⟩) haP d hd
      have hdi : ¬ d = i := fun h => hd2.2 (h ▸ List.mem_cons_self i P)
      have hdN : d ∈ s2.needToInstall := by
        rcases List.mem_append.mp hdmem with h | h
        · exact h
        · exact absurd (List.mem_singleton.mp h) hdi
      rw [List.indexOf_append_of_mem hdN, List.indexOf_append_of_mem ha]
      exact hInv.order a ha d hd hdN
    · rcases List.mem_singleton.mp ha with rfl
      obtain ⟨h1, h2⟩ := hdeps d hd
      have hdi : ¬ d = a := fun h => h2 (h ▸ List.mem_cons_self a P)
      have hdN : d ∈ s2.needToInstall := by
        rcases List.mem_append.mp hdmem with h | h
        · exact h
        · exact absurd (List.mem_singleton.mp h) hdi
      rw [List.indexOf_append_of_mem hdN, List.indexOf_append_of_not_mem hiN,
        List.indexOf_cons_self]
      have := List.indexOf_lt_length.mpr hdN
      omega

/-- Final classification `AlreadyInstalled`: appending `self` to
`alreadyInstalled` and re-marking `seen[self] = False` restores the
invariant with `self` popped off the stack. -/
theorem inv_pop_false {st : Store} {l : Ledger} {rank : Nat → Nat}
    {s2 : WalkState} {P : List Nat} {i : Nat}
    (hInv : Inv st l rank s2 (i :: P)) (hiP : i ∉ P)
    (hneeds : needs st l rank i = false)
    (hdeps : ∀ d ∈ st.deps i,
      lookupSeen s2.seen d = some (needs st l rank d) ∧ d ∉ i :: P) :
    Inv st l rank
      ⟨(i, false) :: s2.seen, s2.alreadyInstalled ++ [i], s2.needToInstall⟩
      P := by
  have hiN : i ∉ s2.needToInstall := by
    intro h
    exact (hInv.seenN i h).2 (List.mem_cons_self i P)
  have hiA : i ∉ s2.alreadyInstalled := by
    intro h
    exact (hInv.seenA i h).2 (List.mem_cons_self i P)
  constructor
  · intro j hj
    have hji : ¬ j = i := fun h => hiP (h ▸ hj)
    rw [lookupSeen_cons, if_neg (fun h => hji h.symm)]
    exact hInv.prov j (List.mem_cons_of_mem i hj)
  · intro j b hj hjP
    by_cases hji : i = j
    · subst hji
      rw [lookupSeen_cons, if_pos rfl] at hj
      have hb : b = false := by injection hj with h; exact h.symm
      rw [hneeds, hb]
    · rw [lookupSeen_cons, if_neg hji] at hj
      refine hInv.val j b hj ?_
      intro h
      rcases List.mem_cons.mp h with rfl | h
      · exact hji rfl
      · exact hjP h
  · intro j hj hjP
    by_cases hji : i = j
    · subst hji
      rw [lookupSeen_cons, if_pos rfl] at hj
      simp at hj
    · rw [lookupSeen_cons, if_neg hji] at hj
      refine hInv.memN j hj ?_
      intro h
      rcases List.mem_cons.mp h with rfl | h
      · exact hji rfl
      · exact hjP h
  · intro j hj hjP
    by_cases hji : i = j
    · subst hji
      exact List.mem_append_right _ (List.mem_singleton_self i)
    · rw [lookupSeen_cons, if_neg hji] at hj
      refine List.mem_append_left _ (hInv.memA j hj ?_)
      intro h
      rcases List.mem_cons.mp h with rfl | h
      · exact hji rfl
      · exact hjP h
  · intro j hj
    obtain ⟨h1, h2⟩ := hInv.seenN j hj
    have hji : ¬ j = i := fun h => h2 (h ▸ List.mem_cons_self i P)
    refine ⟨?_, fun h => h2 (List.mem_cons_of_mem i h)⟩
    rw [lookupSeen_cons, if_neg (fun h => hji h.symm)]
    exact h1
  · intro j hj
    rcases List.mem_append.mp hj with hj | hj
    · obtain ⟨h1, h2⟩ := hInv.seenA j hj
      have hji : ¬ j = i := fun h => h2 (h ▸ List.mem_cons_self i P)
      refine ⟨?_, fun h => h2 (List.mem_cons_of_mem i h)⟩
      rw [lookupSeen_cons, if_neg (fun h => hji h.symm)]
      exact h1
    · rcases List.mem_singleton.mp hj with rfl
      exact ⟨by rw [lookupSeen_cons, if_pos rfl], hiP⟩
  · exact hInv.nodupN
  · exact hInv.nodupA.append (List.nodup_singleton i)
      (fun a ha hai => hiA ((List.mem_singleton.mp hai) ▸ ha))
  · intro j hj hjP d hd
    by_cases hji : i = j
    · subst hji
      obtain ⟨h1, h2⟩ := hdeps d hd
      have hdi : ¬ d = i := fun h => h2 (h ▸ List.mem_cons_self i P)
      refine ⟨?_, fun h => h2 (List.mem_cons_of_mem i h)⟩
      rw [lookupSeen_cons, if_neg (fun h => hdi h.symm), h1]
      rfl
    · rw [lookupSeen_cons, if_neg hji] at hj
      obtain ⟨h1, h2⟩ := hInv.closed j hj
        (fun h => (List.mem_cons.mp h).elim (fun h => hji h.symm) hjP) d hd
      obtain ⟨b, hb⟩ := Option.isSome_iff_exists.mp h1
      have hdi : ¬ d = i := fun h => h2 (h ▸ List.mem_cons_self i P)
      refine ⟨?_, fun h => h2 (List.mem_cons_of_mem i h)⟩
      rw [lookupSeen_cons, if_neg (fun h => hdi h.symm), hb]
      rfl
  · intro a ha d hd hdmem
    exact hInv.order a ha d hd hdmem

@[simp] theorem lookupSeen_cons_isSome {t : List (Nat × Bool)} {k : Nat}
    {v : Bool} {n : Nat} (h : (lookupSeen t n).isSome) :
    (lookupSeen ((k, v) :: t) n).isSome := by
  rw [lookupSeen_cons]
  by_cases hk : k = n
  · simp [hk]
  · simpa [hk] using h

/-- Post-conditions of one `_walkDepTree` call on node `i` from state
`s`, ending in state `s'`, with recursion stack `P`. -/
structure TreeOut (st : Store) (l : Ledger) (rank : Nat → Nat)
    (i : Nat) (s : WalkState) (P : List Nat) (s' : WalkState) : Prop where
  inv : Inv st l rank s' P
  self : lookupSeen s'.seen i = some (needs st l rank i)
  selfP : i ∉ P
  pres : ∀ j b, lookupSeen s.seen j = some b → lookupSeen s'.seen j = some b
  origin : ∀ j, (lookupSeen s'.seen j).isSome →
    (lookupSeen s.seen j).isSome ∨ Reach st i j
  cover : ∀ j, Reach st i j → (lookupSeen s'.seen j).isSome
  nIext : ∃ t, s'.needToInstall = s.needToInstall ++ t
  aIext : ∃ t, s'.alreadyInstalled = s.alreadyInstalled ++ t

/-- Post-conditions of the dependency loop over `ds`. -/
structure DepsOut (st : Store) (l : Ledger) (rank : Nat → Nat)
    (ds : List Nat) (s : WalkState) (P : List Nat) (s' : WalkState) : Prop where
  inv : Inv st l rank s' P
  each : ∀ d ∈ ds, lookupSeen s'.seen d = some (needs st l rank d) ∧ d ∉ P
  pres : ∀ j b, lookupSeen s.seen j = some b → lookupSeen s'.seen j = some b
  origin : ∀ j, (lookupSeen s'.seen j).isSome →
    (lookupSeen s.seen j).isSome ∨ ∃ d ∈ ds, Reach st d j
  cover : ∀ d ∈ ds, ∀ j, Reach st d j → (lookupSeen s'.seen j).isSome
  nIext : ∃ t, s'.needToInstall = s.needToInstall ++ t
  aIext : ∃ t, s'.alreadyInstalled = s.alreadyInstalled ++ t

/-- Soundness of the memoized walk on an acyclic (ranked) graph: with
fuel exceeding the node's rank, `_walkDepTree` returns exactly the pure
classification `needs` and maintains the state invariant. -/
theorem walk_sound {st : Store} {l : Ledger} {rank : Nat → Nat}
    (hr : Ranked st rank) : ∀ fuel : Nat,
    (∀ i s P, Inv st l rank s P → (∀ j ∈ P, rank i < rank j) →
      rank i < fuel →
      ∃ s', walkDepTree st l fuel i s = some (needs st l rank i, s') ∧
        TreeOut st l rank i s P s') ∧
    (∀ ds acc s P, Inv st l rank s P →
      (∀ j ∈ P, ∀ d ∈ ds, rank d < rank j) → (∀ d ∈ ds, rank d < fuel) →
      ∃ s', walkList (walkDepTree st l fuel) ds acc s =
        some (acc || ds.any (fun d => needs st l rank d), s') ∧
        DepsOut st l rank ds s P s') := by
  intro fuel
  induction fuel with
  | zero =>
    constructor
    · intro i s P _ _ hf
      exact absurd hf (Nat.not_lt_zero _)
    · intro ds acc s P hInv hP hds
      match ds with
      | [] =>
        refine ⟨s, by simp [walkList], ?_⟩
        exact { inv := hInv
                each := fun d hd => absurd hd (List.not_mem_nil d)
                pres := fun _ _ h => h
                origin := fun _ h => Or.inl h
                cover := fun d hd => absurd hd (List.not_mem_nil d)
                nIext := ⟨[], (List.append_nil _).symm⟩
                aIext := ⟨[], (List.append_nil _).symm⟩ }
      | d :: ds =>
        exact absurd (hds d (List.mem_cons_self d ds)) (Nat.not_lt_zero _)
  | succ fuel ih =>
    have treePart : ∀ i s P, Inv st l rank s P →
        (∀ j ∈ P, rank i < rank j) → rank i < fuel + 1 →
        ∃ s', walkDepTree st l (fuel + 1) i s =
          some (needs st l rank i, s') ∧ TreeOut st l rank i s P s' := by
      intro i s P hInv hP hfuel
      have hiP : i ∉ P := fun h => absurd (hP i h) (Nat.lt_irrefl _)
      cases hseen : lookupSeen s.seen i with
      | some b =>
        have hb := hInv.val i b hseen hiP
        subst hb
        refine ⟨s, by simp [walkDepTree, hseen], ?_⟩
        exact { inv := hInv
                self := hseen
                selfP := hiP
                pres := fun _ _ h => h
                origin := fun _ h => Or.inl h
                cover := fun j hrj =>
                  (reach_finished hInv hrj
                    (Option.isSome_iff_exists.mpr ⟨_, hseen⟩) hiP).1
                nIext := ⟨[], (List.append_nil _).symm⟩
                aIext := ⟨[], (List.append_nil _).symm⟩ }
      | none =>
        have hne : ∀ j b, lookupSeen s.seen j = some b → ¬ j = i := by
          intro j b hj hji
          rw [hji, hseen] at hj
          exact Option.noConfusion hj
        have hInv1 := inv_push hInv hseen
        obtain ⟨s2, hw2, hD⟩ := ih.2 (st.deps i) false
          ⟨(i, false) :: s.seen, s.alreadyInstalled, s.needToInstall⟩ (i :: P)
          hInv1
          (by
            intro j hj d hd
            rcases List.mem_cons.mp hj with rfl | hj
            · exact hr j d hd
            · exact Nat.lt_trans (hr i d hd) (hP j hj))
          (fun d hd => by have := hr i d hd; omega)
        have hcond : (isInstalled st l i &&
            !((st.deps i).any fun d => needs st l rank d)) =
            !(needs st l rank i) := by
          rw [needs_eq hr i]
          cases isInstalled st l i <;>
            cases (st.deps i).any fun d => needs st l rank d <;> rfl
        have hpres2 : ∀ j b, lookupSeen s.seen j = some b →
            lookupSeen s2.seen j = some b := by
          intro j b hj
          refine hD.pres j b ?_
          rw [lookupSeen_cons, if_neg (fun h => hne j b hj h.symm)]
          exact hj
        have horigin2 : ∀ j, (lookupSeen s2.seen j).isSome →
            (lookupSeen s.seen j).isSome ∨ Reach st i j := by
          intro j hj
          rcases hD.origin j hj with hj1 | ⟨d, hd, hdj⟩
          · rw [lookupSeen_cons] at hj1
            by_cases hij : i = j
            · exact Or.inr (hij ▸ Reach.refl i)
            · rw [if_neg hij] at hj1
              exact Or.inl hj1
          · exact Or.inr (((Reach.refl i).step hd).trans hdj)
        cases hni : needs st l rank i with
        | true =>
          refine ⟨⟨(i, true) :: s2.seen, s2.alreadyInstalled,
              s2.needToInstall ++ [i]⟩, ?_, ?_⟩
          · simp only [walkDepTree, hseen]
            simp only [hw2, Bool.false_or]
            rw [hcond, hni]
            simp
          · refine { inv := inv_pop_true hD.inv hiP hni hD.each
                     selfP := hiP
                     self := by rw [lookupSeen_cons, if_pos rfl, hni]
                     pres := ?_, origin := ?_, cover := ?_
                     nIext := ?_, aIext := ?_ }
            · intro j b hj
              rw [lookupSeen_cons, if_neg (fun h => hne j b hj h.symm)]
              exact hpres2 j b hj
            · intro j hj
              by_cases hij : i = j
              · exact Or.inr (hij ▸ Reach.refl i)
              · rw [lookupSeen_cons, if_neg hij] at hj
                exact horigin2 j hj
            · intro j hrj
              rcases reach_split hrj with rfl | ⟨d, hd, hdj⟩
              · simp
              · exact lookupSeen_cons_isSome (hD.cover d hd j hdj)
            · obtain ⟨t, ht⟩ := hD.nIext
              exact ⟨t ++ [i], by simp [ht]⟩
            · obtain ⟨t, ht⟩ := hD.aIext
              exact ⟨t, ht⟩
        | false =>
          refine ⟨⟨(i, false) :: s2.seen, s2.alreadyInstalled ++ [i],
              s2.needToInstall⟩, ?_, ?_⟩
          · simp only [walkDepTree, hseen]
            simp only [hw2, Bool.false_or]
            rw [hcond, hni]
            simp
          · refine { inv := inv_pop_false hD.inv hiP hni hD.each
                     selfP := hiP
                     self := by rw [lookupSeen_cons, if_pos rfl, hni]
                     pres := ?_, origin := ?_, cover := ?_
                     nIext := ?_, aIext := ?_ }
            · intro j b hj
              rw [lookupSeen_cons, if_neg (fun h => hne j b hj h.symm)]
              exact hpres2 j b hj
            · intro j hj
              by_cases hij : i = j
              · exact Or.inr (hij ▸ Reach.refl i)
              · rw [lookupSeen_cons, if_neg hij] at hj
                exact horigin2 j hj
            · intro j hrj
              rcases reach_split hrj with rfl | ⟨d, hd, hdj⟩
              · simp
              · exact lookupSeen_cons_isSome (hD.cover d hd j hdj)
            · obtain ⟨t, ht⟩ := hD.nIext
              exact ⟨t, ht⟩
            · obtain ⟨t, ht⟩ := hD.aIext
              exact ⟨t ++ [i], by simp [ht]⟩
    refine ⟨treePart, ?_⟩
    intro ds
    induction ds with
    | nil =>
      intro acc s P hInv hP hds
      refine ⟨s, by simp [walkList], ?_⟩
      exact { inv := hInv
              each := fun d hd => absurd hd (List.not_mem_nil d)
              pres := fun _ _ h => h
              origin := fun _ h => Or.inl h
              cover := fun d hd => absurd hd (List.not_mem_nil d)
              nIext := ⟨[], (List.append_nil _).symm⟩
              aIext := ⟨[], (List.append_nil _).symm⟩ }
    | cons d ds ihds =>
      intro acc s P hInv hP hds
      obtain ⟨s2, hw, hT⟩ := treePart d s P hInv
        (fun j hj => hP j hj d (List.mem_cons_self d ds))
        (hds d (List.mem_cons_self d ds))
      obtain ⟨s3, hw3, hD⟩ := ihds (needs st l rank d || acc) s2 P hT.inv
        (fun j hj e he => hP j hj e (List.mem_cons_of_mem d he))
        (fun e he => hds e (List.mem_cons_of_mem d he))
      refine ⟨s3, ?_, ?_⟩
      · simp only [walkList]
        simp only [hw]
        rw [hw3, List.any_cons, ← Bool.or_assoc, Bool.or_comm acc]
      · refine { inv := hD.inv
                 each := ?_, pres := ?_, origin := ?_, cover := ?_
                 nIext := ?_, aIext := ?_ }
        · intro e he
          rcases List.mem_cons.mp he with rfl | he
          · exact ⟨hD.pres e _ hT.self, hT.selfP⟩
          · exact hD.each e he
        · exact fun j b hj => hD.pres j b (hT.pres j b hj)
        · intro j hj
          rcases hD.origin j hj with hj1 | ⟨e, he, hej⟩
          · rcases hT.origin j hj1 with hj2 | hdj
            · exact Or.inl hj2
            · exact Or.inr ⟨d, List.mem_cons_self d ds, hdj⟩
          · exact Or.inr ⟨e, List.mem_cons_of_mem d he, hej⟩
        · intro e he j hej
          rcases List.mem_cons.mp he with rfl | he
          · obtain ⟨b, hb⟩ := Option.isSome_iff_exists.mp (hT.cover j hej)
            exact Option.isSome_iff_exists.mpr ⟨b, hD.pres j b hb⟩
          · exact hD.cover e he j hej
        · obtain ⟨t1, ht1⟩ := hT.nIext
          obtain ⟨t2, ht2⟩ := hD.nIext
          exact ⟨t1 ++ t2, by rw [ht2, ht1, List.append_assoc]⟩
        · obtain ⟨t1, ht1⟩ := hT.aIext
          obtain ⟨t2, ht2⟩ := hD.aIext
          exact ⟨t1 ++ t2, by rw [ht2, ht1, List.append_assoc]⟩

/-- Number of nodes of the universe `U` not yet in the `seen`
dictionary; the decreasing measure of the walk. -/
def countUnseen (U : List Nat) (s : WalkState) : Nat :=
  (U.filter (fun i => (lookupSeen s.seen i).isNone)).length

theorem length_filter_mono {α : Type} {p q : α → Bool} (U : List α)
    (h : ∀ x ∈ U, q x = true → p x = true) :
    (U.filter q).length ≤ (U.filter p).length := by
  induction U with
  | nil => exact Nat.le_refl _
  | cons y ys ih =>
    have ih2 := ih fun x hx => h x (List.mem_cons_of_mem y hx)
    cases hqy : q y with
    | true =>
      rw [List.filter_cons_of_pos hqy,
        List.filter_cons_of_pos (h y (List.mem_cons_self y ys) hqy)]
      exact Nat.succ_le_succ ih2
    | false =>
      rw [List.filter_cons_of_neg (by simp [hqy])]
      cases hpy : p y with
      | true =>
        rw [List.filter_cons_of_pos hpy]
        exact Nat.le_succ_of_le ih2
      | false =>
        rw [List.filter_cons_of_neg (by simp [hpy])]
        exact ih2

theorem length_filter_lt {α : Type} {p q : α → Bool} {U : List α} {x : α}
    (hx : x ∈ U) (h : ∀ y ∈ U, q y = true → p y = true)
    (hqx : q x = false) (hpx : p x = true) :
    (U.filter q).length < (U.filter p).length := by
  induction U with
  | nil => cases hx
  | cons y ys ih =>
    have hmono := length_filter_mono (p := p) (q := q) ys
      (fun z hz => h z (List.mem_cons_of_mem y hz))
    rcases List.mem_cons.mp hx with rfl | hx2
    · rw [List.filter_cons_of_neg (by simp [hqx]), List.filter_cons_of_pos hpx]
      exact Nat.lt_succ_of_le hmono
    · have ih2 := ih hx2 fun z hz => h z (List.mem_cons_of_mem y hz)
      cases hqy : q y with
      | true =>
        rw [List.filter_cons_of_pos hqy,
          List.filter_cons_of_pos (h y (List.mem_cons_self y ys) hqy)]
        exact Nat.succ_lt_succ ih2
      | false =>
        rw [List.filter_cons_of_neg (by simp [hqy])]
        cases hpy : p y with
        | true =>
          rw [List.filter_cons_of_pos hpy]
          exact Nat.lt_succ_of_lt ih2
        | false =>
          rw [List.filter_cons_of_neg (by simp [hpy])]
          exact ih2

theorem countUnseen_mono {U : List Nat} {s s' : WalkState}
    (h : ∀ j, (lookupSeen s.seen j).isSome → (lookupSeen s'.seen j).isSome) :
    countUnseen U s' ≤ countUnseen U s := by
  refine length_filter_mono U fun x _ hx => ?_
  rw [Option.isNone_iff_eq_none] at hx ⊢
  by_contra hc
  have := h x (Option.isSome_iff_ne_none.mpr hc)
  rw [hx] at this
  exact Bool.noConfusion this

theorem countUnseen_cons_le {U : List Nat} {s : WalkState} {i : Nat}
    {b : Bool} {aI nI : List Nat} :
    countUnseen U ⟨(i, b) :: s.seen, aI, nI⟩ ≤ countUnseen U s := by
  refine countUnseen_mono fun j hj => ?_
  exact lookupSeen_cons_isSome hj

theorem countUnseen_cons_lt {U : List Nat} {s : WalkState} {i : Nat}
    {b : Bool} {aI nI : List Nat} (hiU : i ∈ U)
    (hseen : lookupSeen s.seen i = none) :
    countUnseen U ⟨(i, b) :: s.seen, aI, nI⟩ < countUnseen U s := by
  refine length_filter_lt hiU ?_ ?_ ?_
  · intro y _ hy
    rw [Option.isNone_iff_eq_none] at hy ⊢
    by_contra hc
    have h2 := lookupSeen_cons_isSome (k := i) (v := b)
      (Option.isSome_iff_ne_none.mpr hc)
    rw [hy] at h2
    exact Bool.noConfusion h2
  · simp
  · simp [hseen]

/-- Totality of the walk on an arbitrary finite closed graph — cycles
allowed.  With fuel exceeding the number of unseen universe nodes, the
walk always returns, and `seen` only grows. -/
theorem walk_total {st : Store} {l : Ledger} {U : List Nat}
    (hclosed : ∀ i ∈ U, ∀ d ∈ st.deps i, d ∈ U) : ∀ fuel : Nat,
    (∀ i s, i ∈ U → countUnseen U s < fuel →
      ∃ b s', walkDepTree st l fuel i s = some (b, s') ∧
        (∀ j, (lookupSeen s.seen j).isSome → (lookupSeen s'.seen j).isSome) ∧
        countUnseen U s' ≤ countUnseen U s) ∧
    (∀ ds acc s, (∀ d ∈ ds, d ∈ U) → countUnseen U s < fuel →
      ∃ b s', walkList (walkDepTree st l fuel) ds acc s = some (b, s') ∧
        (∀ j, (lookupSeen s.seen j).isSome → (lookupSeen s'.seen j).isSome) ∧
        countUnseen U s' ≤ countUnseen U s) := by
  intro fuel
  induction fuel with
  | zero =>
    constructor
    · intro i s _ hc
      exact absurd hc (Nat.not_lt_zero _)
    · intro ds acc s _ hc
      exact absurd hc (Nat.not_lt_zero _)
  | succ fuel ih =>
    have treePart : ∀ i s, i ∈ U → countUnseen U s < fuel + 1 →
        ∃ b s', walkDepTree st l (fuel + 1) i s = some (b, s') ∧
          (∀ j, (lookupSeen s.seen j).isSome →
            (lookupSeen s'.seen j).isSome) ∧
          countUnseen U s' ≤ countUnseen U s := by
      intro i s hiU hcnt
      cases hseen : lookupSeen s.seen i with
      | some b =>
        exact ⟨b, s, by simp [walkDepTree, hseen], fun _ h => h,
          Nat.le_refl _⟩
      | none =>
        have hlt : countUnseen U
            ⟨(i, false) :: s.seen, s.alreadyInstalled, s.needToInstall⟩ <
            countUnseen U s := countUnseen_cons_lt hiU hseen
        obtain ⟨b2, s2, hw2, hmono2, hcnt2⟩ := ih.2 (st.deps i) false
          ⟨(i, false) :: s.seen, s.alreadyInstalled, s.needToInstall⟩
          (fun d hd => hclosed i hiU d hd) (by omega)
        cases hc : isInstalled st l i && !b2 with
        | true =>
          refine ⟨false, ⟨(i, false) :: s2.seen,
            s2.alreadyInstalled ++ [i], s2.needToInstall⟩, ?_, ?_, ?_⟩
          · simp only [walkDepTree, hseen]
            simp only [hw2]
            simp [hc]
          · intro j hj
            exact lookupSeen_cons_isSome
              (hmono2 j (lookupSeen_cons_isSome hj))
          · calc countUnseen U ⟨(i, false) :: s2.seen,
                s2.alreadyInstalled ++ [i], s2.needToInstall⟩
                ≤ countUnseen U s2 := countUnseen_cons_le
              _ ≤ _ := Nat.le_trans hcnt2 (Nat.le_of_lt hlt)
        | false =>
          refine ⟨true, ⟨(i, true) :: s2.seen,
            s2.alreadyInstalled, s2.needToInstall ++ [i]⟩, ?_, ?_, ?_⟩
          · simp only [walkDepTree, hseen]
            simp only [hw2]
            simp [hc]
          · intro j hj
            exact lookupSeen_cons_isSome
              (hmono2 j (lookupSeen_cons_isSome hj))
          · calc countUnseen U ⟨(i, true) :: s2.seen,
                s2.alreadyInstalled, s2.needToInstall ++ [i]⟩
                ≤ countUnseen U s2 := countUnseen_cons_le
              _ ≤ _ := Nat.le_trans hcnt2 (Nat.le_of_lt hlt)
    refine ⟨treePart, ?_⟩
    intro ds
    induction ds with
    | nil =>
      intro acc s _ _
      exact ⟨acc, s, by simp [walkList], fun _ h => h, Nat.le_refl _⟩
    | cons d ds ihds =>
      intro acc s hds hcnt
      obtain ⟨b1, s2, hw1, hmono1, hcnt1⟩ :=
        treePart d s (hds d (List.mem_cons_self d ds)) hcnt
      obtain ⟨b2, s3, hw2, hmono2, hcnt2⟩ := ihds (b1 || acc) s2
        (fun e he => hds e (List.mem_cons_of_mem d he))
        (Nat.lt_of_le_of_lt hcnt1 hcnt)
      refine ⟨b2, s3, ?_, fun j hj => hmono2 j (hmono1 j hj),
        Nat.le_trans hcnt2 hcnt1⟩
      simp only [walkList]
      simp only [hw1]
      exact hw2

/-- The install loop of `Package.install`: for each package of the
build-order list, fetch (`pkg._get()`), build
(`pkg._buildAndInstall()`), then write and persist the ledger entry
(`_installJson[pkg.name] = pkg.getKey(); _saveInstallJson()`).  The
fetch and build calls shell out to external tools, so their outcomes
are supplied as oracles `fetchOk` / `buildOk`; an exception aborts the
loop.  Returns the list of packages whose fetch was invoked, the list
whose build was invoked (each including the failing one, in order), the
final ledger, and whether the loop completed. -/
def processNeedList (st : Store) (fetchOk buildOk : Nat → Bool) :
    List Nat → Ledger → List Nat × List Nat × Ledger × Bool
  | [], l => ([], [], l, true)
  | p :: ps, l =>
    if fetchOk p then
      if buildOk p then
        match processNeedList st fetchOk buildOk ps
            (ledgerSet l (st.name p) (st.getKey p)) with
        | (f, b, l', ok) => (p :: f, p :: b, l', ok)
      else ([p], [p], l, false)
    else ([p], [], l, false)

/-- `Package.install`: walk the dependency tree from the target with an
empty `seen`/output state, report the skip list, then process the
build-order list.  `none` only when the walk runs out of fuel. -/
def install (st : Store) (fetchOk buildOk : Nat → Bool) (fuel root : Nat)
    (l : Ledger) : Option (WalkState × List Nat × List Nat × Ledger × Bool) :=
  match walkDepTree st l fuel root emptyWalkState with
  | none => none
  | some (_, s) => some (s, processNeedList st fetchOk buildOk s.needToInstall l)

/-- Ledger after successfully installing the packages `ps` in order. -/
def updLedger (st : Store) (ps : List Nat) (l : Ledger) : Ledger :=
  ps.foldl (fun acc p => ledgerSet acc (st.name p) (st.getKey p)) l

theorem processNeedList_ok {st : Store} {fetchOk buildOk : Nat → Bool} :
    ∀ {ps : List Nat} {l : Ledger} {f b : List Nat} {l' : Ledger},
    processNeedList st fetchOk buildOk ps l = (f, b, l', true) →
    (∀ p ∈ ps, fetchOk p = true ∧ buildOk p = true) ∧
      f = ps ∧ b = ps ∧ l' = updLedger st ps l := by
  intro ps
  induction ps with
  | nil =>
    intro l f b l' h
    simp only [processNeedList, Prod.mk.injEq] at h
    exact ⟨fun p hp => absurd hp (List.not_mem_nil p),
      h.1.symm, h.2.1.symm, h.2.2.1.symm⟩
  | cons p ps ih =>
    intro l f b l' h
    simp only [processNeedList] at h
    cases hf : fetchOk p with
    | false =>
      rw [hf] at h
      simp only [Bool.false_eq_true, if_false, Prod.mk.injEq] at h
      exact h.2.2.2.elim
    | true =>
      rw [hf] at h
      simp only [if_true] at h
      cases hb : buildOk p with
      | false =>
        rw [hb] at h
        simp only [Bool.false_eq_true, if_false, Prod.mk.injEq] at h
        exact h.2.2.2.elim
      | true =>
        rw [hb] at h
        simp only [if_true] at h
        rcases hrec : processNeedList st fetchOk buildOk ps
          (ledgerSet l (st.name p) (st.getKey p)) with ⟨f2, b2, l2, ok2⟩
        rw [hrec] at h
        simp only [Prod.mk.injEq] at h
        obtain ⟨hf1, hb1, hl1, hok⟩ := h
        subst hok
        obtain ⟨hAll, hf2, hb2, hl2⟩ := ih hrec
        refine ⟨?_, ?_, ?_, ?_⟩
        · intro q hq
          rcases List.mem_cons.mp hq with rfl | hq
          · exact ⟨hf, hb⟩
          · exact hAll q hq
        · rw [← hf1, hf2]
        · rw [← hb1, hb2]
        · rw [← hl1, hl2]
          rfl

/-- The fail-fast shape of the install loop: with `pre` succeeding and
`fail` failing, the loop stops at `fail`; ledger entries are written for
exactly `pre`, `fail`'s fetch is invoked, its build only when the fetch
succeeded, and nothing after `fail` is touched. -/
theorem processNeedList_split {st : Store} {fetchOk buildOk : Nat → Bool}
    {fail : Nat} {post : List Nat}
    (hfail : ¬(fetchOk fail = true ∧ buildOk fail = true)) :
    ∀ (pre : List Nat) (l : Ledger),
    (∀ p ∈ pre, fetchOk p = true ∧ buildOk p = true) →
    processNeedList st fetchOk buildOk (pre ++ fail :: post) l =
      (pre ++ [fail],
       pre ++ (if fetchOk fail = true then [fail] else []),
       updLedger st pre l, false) := by
  intro pre
  induction pre with
  | nil =>
    intro l _
    simp only [List.nil_append, processNeedList]
    cases hf : fetchOk fail with
    | false =>
      simp only [Bool.false_eq_true, if_false]
      rfl
    | true =>
      have hb : buildOk fail = false := by
        cases hbv : buildOk fail with
        | true => exact absurd ⟨hf, hbv⟩ hfail
        | false => rfl
      simp only [hb, Bool.false_eq_true, if_false, if_true]
      rfl
  | cons p pre ih =>
    intro l hpre
    obtain ⟨hf, hb⟩ := hpre p (List.mem_cons_self p pre)
    simp only [List.cons_append, processNeedList, hf, hb, if_true,
      List.append_eq]
    rw [ih (ledgerSet l (st.name p) (st.getKey p))
      (fun q hq => hpre q (List.mem_cons_of_mem p hq))]
    rfl

theorem ledgerGet_ledgerSet (l : Ledger) (n v m : String) :
    ledgerGet (ledgerSet l n v) m = if n = m then some v else ledgerGet l m :=
  rfl

/-- Ledger entries for names not written by `updLedger` are unchanged. -/
theorem ledgerGet_updLedger_of_not_mem {st : Store} :
    ∀ {ps : List Nat} {l : Ledger} {n : String},
    (∀ p ∈ ps, st.name p ≠ n) →
    ledgerGet (updLedger st ps l) n = ledgerGet l n := by
  intro ps
  induction ps with
  | nil => intro l n _; rfl
  | cons p ps ih =>
    intro l n h
    show ledgerGet (updLedger st ps (ledgerSet l (st.name p) (st.getKey p))) n
      = ledgerGet l n
    rw [ih fun q hq => h q (List.mem_cons_of_mem p hq),
      ledgerGet_ledgerSet,
      if_neg (h p (List.mem_cons_self p ps))]

/-- If some processed package has name `n`, then after `updLedger` the
entry for `n` is the fingerprint of one of the processed packages with
that name. -/
theorem ledgerGet_updLedger_of_mem {st : Store} :
    ∀ {ps : List Nat} {l : Ledger} {n : String},
    (∃ p ∈ ps, st.name p = n) →
    ∃ p ∈ ps, st.name p = n ∧
      ledgerGet (updLedger st ps l) n = some (st.getKey p) := by
  intro ps
  induction ps with
  | nil =>
    intro l n h
    obtain ⟨p, hp, _⟩ := h
    exact absurd hp (List.not_mem_nil p)
  | cons p ps ih =>
    intro l n h
    by_cases hps : ∃ q ∈ ps, st.name q = n
    · obtain ⟨q, hq, hqn, hget⟩ :=
        ih (l := ledgerSet l (st.name p) (st.getKey p)) hps
      exact ⟨q, List.mem_cons_of_mem p hq, hqn, hget⟩
    · have hpn : st.name p = n := by
        obtain ⟨q, hq, hqn⟩ := h
        rcases List.mem_cons.mp hq with rfl | hq
        · exact hqn
        · exact absurd ⟨q, hq, hqn⟩ hps
      refine ⟨p, List.mem_cons_self p ps, hpn, ?_⟩
      show ledgerGet
        (updLedger st ps (ledgerSet l (st.name p) (st.getKey p))) n = _
      rw [ledgerGet_updLedger_of_not_mem
        (fun q hq hqn => hps ⟨q, hq, hqn⟩),
        ledgerGet_ledgerSet, if_pos hpn]

theorem isInstalled_iff {st : Store} {l : Ledger} {i : Nat} :
    isInstalled st l i = true ↔
      ledgerGet l (st.name i) = some (st.getKey i) := by
  simp [isInstalled]

/-- The module-level `packageMap` together with the `Package` objects it
refers to: node ids number the `Package` objects in creation order,
`nextId` is the next fresh id, and `packageMap` maps names to ids
(assignment shadows, lookup takes the newest binding, observationally
the Python dict). -/
structure Registry where
  store : Store
  nextId : Nat
  packageMap : List (String × Nat)

/-- `packageMap[name]` / `name in packageMap`. -/
def lookupMap : List (String × Nat) → String → Option Nat
  | [], _ => none
  | (k, v) :: rest, n => if k = n then some v else lookupMap rest n

/-- The initial module state: `packageMap = {}`, no `Package` objects. -/
def emptyRegistry : Registry where
  store :=
    { name := fun _ => ""
      source := fun _ => Source.git "" ""
      buildStep := fun _ => BuildStep.configureAndMake []
      deps := fun _ => [] }
  nextId := 0
  packageMap := []

/-- The dependency-resolution loop of `pkg`: for each name in order,
look it up in `packageMap`, failing with
`NameError(f'Dependency {depName} (for {name}) not found')` at the first
unknown name. -/
def resolveDeps (m : List (String × Nat)) (forName : String) :
    List String → Except String (List Nat)
  | [] => .ok []
  | d :: ds =>
    match lookupMap m d with
    | none => .error ("Dependency " ++ d ++ " (for " ++ forName ++ ") not found")
    | some i =>
      match resolveDeps m forName ds with
      | .error e => .error e
      | .ok rest => .ok (i :: rest)

/-- `pkg(name=..., source=..., buildStep=..., deps=...)`: resolve the
dependency names against the current `packageMap`, construct the
`Package` (a fresh node id carrying the fields), and bind the name to it
in `packageMap` (replacing any previous binding).  The raised
`NameError` is modeled as `Except.error`; on error nothing is added. -/
def pkg (r : Registry) (name : String) (source : Source)
    (buildStep : BuildStep) (deps : List String) : Except String Registry :=
  match resolveDeps r.packageMap name deps with
  | .error e => .error e
  | .ok ds =>
    .ok { store :=
            { name := fun i => if i = r.nextId then name else r.store.name i
              source := fun i => if i = r.nextId then source else r.store.source i
              buildStep := fun i =>
                if i = r.nextId then buildStep else r.store.buildStep i
              deps := fun i => if i = r.nextId then ds else r.store.deps i }
          nextId := r.nextId + 1
          packageMap := (name, r.nextId) :: r.packageMap }

/-- Well-formedness of the module state: every name in `packageMap`
refers to an already-created node, and every node's dependencies refer
to strictly earlier-created nodes. -/
def RegistryWF (r : Registry) : Prop :=
  (∀ n i, lookupMap r.packageMap n = some i → i < r.nextId) ∧
  (∀ i, ∀ d ∈ r.store.deps i, d < i)

theorem emptyRegistry_wf : RegistryWF emptyRegistry := by
  constructor
  · intro n i h
    exact absurd h (by simp [emptyRegistry, lookupMap])
  · intro i d hd
    exact absurd hd (by simp [emptyRegistry])

theorem resolveDeps_ok_of_all {m : List (String × Nat)} (nm : String) :
    ∀ {deps : List String}, (∀ d ∈ deps, (lookupMap m d).isSome) →
    ∃ ds, resolveDeps m nm deps = .ok ds := by
  intro deps
  induction deps with
  | nil => exact fun _ => ⟨[], rfl⟩
  | cons d ds ih =>
    intro h
    obtain ⟨i, hi⟩ := Option.isSome_iff_exists.mp
      (h d (List.mem_cons_self d ds))
    obtain ⟨rest, hrest⟩ := ih fun e he => h e (List.mem_cons_of_mem d he)
    exact ⟨i :: rest, by simp only [resolveDeps, hi, hrest]⟩

theorem resolveDeps_error_of_missing {m : List (String × Nat)} (nm : String) :
    ∀ {deps : List String}, (∃ d ∈ deps, lookupMap m d = none) →
    ∃ e, resolveDeps m nm deps = .error e := by
  intro deps
  induction deps with
  | nil =>
    intro h
    obtain ⟨d, hd, _⟩ := h
    exact absurd hd (List.not_mem_nil d)
  | cons d ds ih =>
    intro h
    cases hd : lookupMap m d with
    | none =>
      exact ⟨"Dependency " ++ d ++ " (for " ++ nm ++ ") not found",
        by simp only [resolveDeps, hd]⟩
    | some i =>
      have hds : ∃ e ∈ ds, lookupMap m e = none := by
        obtain ⟨e, he, hen⟩ := h
        rcases List.mem_cons.mp he with rfl | he2
        · rw [hd] at hen
          exact absurd hen (by simp)
        · exact ⟨e, he2, hen⟩
      obtain ⟨e, he⟩ := ih hds
      exact ⟨e, by simp only [resolveDeps, hd, he]⟩

theorem resolveDeps_mem {m : List (String × Nat)} {nm : String} :
    ∀ {deps : List String} {ds : List Nat},
    resolveDeps m nm deps = .ok ds →
    ∀ x ∈ ds, ∃ d ∈ deps, lookupMap m d = some x := by
  intro deps
  induction deps with
  | nil =>
    intro ds h x hx
    simp only [resolveDeps] at h
    injection h with h
    subst h
    exact absurd hx (List.not_mem_nil x)
  | cons d dsn ih =>
    intro ds h x hx
    simp only [resolveDeps] at h
    cases hd : lookupMap m d with
    | none =>
      rw [hd] at h
      exact Except.noConfusion h
    | some i =>
      rw [hd] at h
      cases hrest : resolveDeps m nm dsn with
      | error e =>
        rw [hrest] at h
        exact Except.noConfusion h
      | ok rest =>
        rw [hrest] at h
        injection h with h
        subst h
        rcases List.mem_cons.mp hx with rfl | hx2
        · exact ⟨d, List.mem_cons_self d dsn, hd⟩
        · obtain ⟨e, he, hex⟩ := ih hrest x hx2
          exact ⟨e, List.mem_cons_of_mem d he, hex⟩

/-- The flags strictly before the distinguished position, each followed
by the separator. -/
def joinPre : List String → String
  | [] => ""
  | p :: ps => p ++ "," ++ joinPre ps

/-- The flags strictly after the distinguished position, preceded by the
separator when non-empty. -/
def joinSuf : List String → String
  | [] => ""
  | x :: xs => "," ++ joinComma (x :: xs)

theorem joinComma_cons_of_ne_nil (x : String) {l : List String}
    (h : l ≠ []) : joinComma (x :: l) = x ++ "," ++ joinComma l := by
  match l with
  | [] => exact absurd rfl h
  | y :: ys => rfl

/-- `",".join` around one distinguished element: the surrounding text
depends only on the other elements. -/
theorem joinComma_split (pre suf : List String) (a : String) :
    joinComma (pre ++ a :: suf) = joinPre pre ++ (a ++ joinSuf suf) := by
  induction pre with
  | nil =>
    match suf with
    | [] =>
      show joinComma [a] = "" ++ (a ++ "")
      rw [String.empty_append]
      show a = a ++ ""
      rw [String.append_empty]
    | x :: xs =>
      rw [List.nil_append, joinComma_cons_of_ne_nil a (by simp)]
      show a ++ "," ++ joinComma (x :: xs) = "" ++ (a ++ ("," ++ joinComma (x :: xs)))
      rw [String.empty_append, String.append_assoc]
  | cons p ps ih =>
    rw [List.cons_append,
      joinComma_cons_of_ne_nil p (by simp),
      ih]
    show p ++ "," ++ (joinPre ps ++ (a ++ joinSuf suf)) =
      p ++ "," ++ joinPre ps ++ (a ++ joinSuf suf)
    rw [String.append_assoc (p ++ ",")]

theorem string_append_cancel {x y a b : String}
    (h : x ++ (a ++ y) = x ++ (b ++ y)) : a = b := by
  have hd := congrArg String.data h
  simp only [String.data_append] at hd
  have h1 := List.append_cancel_left hd
  have h2 := List.append_cancel_right h1
  exact String.ext h2

/-- Extraction of the walk post-conditions for the top-level call of
`install`, which starts from the empty state. -/
theorem walk_from_empty {st : Store} {l : Ledger} {rank : Nat → Nat}
    (hr : Ranked st rank) {fuel root : Nat} (hfuel : rank root < fuel)
    {b : Bool} {s : WalkState}
    (hw : walkDepTree st l fuel root emptyWalkState = some (b, s)) :
    b = needs st l rank root ∧ TreeOut st l rank root emptyWalkState [] s := by
  obtain ⟨s', hw', hT⟩ := (walk_sound hr fuel).1 root emptyWalkState []
    (inv_empty st l rank)
    (fun j hj => absurd hj (List.not_mem_nil j)) hfuel
  rw [hw] at hw'
  injection hw' with hw'
  injection hw' with hb hs
  subst hs
  exact ⟨hb, hT⟩

/-- Nodes visited by a walk from the empty state are reachable from the
root. -/
theorem seen_reach_of_empty {st : Store} {l : Ledger} {rank : Nat → Nat}
    {root : Nat} {s : WalkState}
    (hT : TreeOut st l rank root emptyWalkState [] s) :
    ∀ j, (lookupSeen s.seen j).isSome → Reach st root j := by
  intro j hj
  rcases hT.origin j hj with habs | h
  · rw [show emptyWalkState.seen = [] from rfl, lookupSeen_nil] at habs
    exact Bool.noConfusion habs
  · exact h

/-- C1.  On an acyclic graph (witnessed by a rank function decreasing
along dependency edges), every node the walk classifies is in the
`NeedsInstall` list iff its own fingerprint mismatches the ledger or
some dependency is in the `NeedsInstall` list. -/
theorem minibrew_C1 {st : Store} {l : Ledger} {rank : Nat → Nat}
    (hr : Ranked st rank) {fuel root : Nat} (hfuel : rank root < fuel)
    {b : Bool} {s : WalkState}
    (hw : walkDepTree st l fuel root emptyWalkState = some (b, s)) :
    ∀ j, j ∈ s.needToInstall ∨ j ∈ s.alreadyInstalled →
      (j ∈ s.needToInstall ↔
        (isInstalled st l j = false ∨
          ∃ d ∈ st.deps j, d ∈ s.needToInstall)) := by
  obtain ⟨-, hT⟩ := walk_from_empty hr hfuel hw
  have hInv := hT.inv
  have hnil : ∀ j : Nat, j ∉ ([] : List Nat) :=
    fun j h => absurd h (List.not_mem_nil j)
  have hfin : ∀ j, j ∈ s.needToInstall ∨ j ∈ s.alreadyInstalled →
      lookupSeen s.seen j = some (needs st l rank j) := by
    intro j hj
    rcases hj with hj | hj
    · have h1 := (hInv.seenN j hj).1
      have h2 := hInv.val j true h1 (hnil j)
      rw [h2] at h1
      exact h1
    · have h1 := (hInv.seenA j hj).1
      have h2 := hInv.val j false h1 (hnil j)
      rw [h2] at h1
      exact h1
  have hneedsIff : ∀ j, j ∈ s.needToInstall ∨ j ∈ s.alreadyInstalled →
      (j ∈ s.needToInstall ↔ needs st l rank j = true) := by
    intro j hj
    constructor
    · intro h
      exact (hInv.val j true (hInv.seenN j h).1 (hnil j)).symm
    · intro h
      exact hInv.memN j (by rw [hfin j hj, h]) (hnil j)
  intro j hj
  rw [hneedsIff j hj, needs_eq hr j]
  constructor
  · intro h
    rcases (Bool.or_eq_true _ _).mp h with h1 | h2
    · left
      cases hInst : isInstalled st l j with
      | false => rfl
      | true => rw [hInst] at h1; exact Bool.noConfusion h1
    · right
      obtain ⟨d, hd, hdn⟩ := List.any_eq_true.mp h2
      obtain ⟨hdSome, -⟩ := hInv.closed j
        (Option.isSome_iff_exists.mpr ⟨_, hfin j hj⟩) (hnil j) d hd
      obtain ⟨bd, hbd⟩ := Option.isSome_iff_exists.mp hdSome
      have hbdv := hInv.val d bd hbd (hnil d)
      exact ⟨d, hd, hInv.memN d (by rw [hbd, hbdv, hdn]) (hnil d)⟩
  · intro h
    apply (Bool.or_eq_true _ _).mpr
    rcases h with h | ⟨d, hd, hdN⟩
    · left
      rw [h]
      rfl
    · right
      apply List.any_eq_true.mpr
      exact ⟨d, hd, (hInv.val d true (hInv.seenN d hdN).1 (hnil d)).symm⟩

/-- C2.  In the build-order list, a dependency that itself needs
installing always occupies an earlier position than its dependent. -/
theorem minibrew_C2 {st : Store} {l : Ledger} {rank : Nat → Nat}
    (hr : Ranked st rank) {fuel root : Nat} (hfuel : rank root < fuel)
    {b : Bool} {s : WalkState}
    (hw : walkDepTree st l fuel root emptyWalkState = some (b, s)) :
    ∀ a ∈ s.needToInstall, ∀ d ∈ st.deps a, d ∈ s.needToInstall →
      s.needToInstall.indexOf d < s.needToInstall.indexOf a := by
  obtain ⟨-, hT⟩ := walk_from_empty hr hfuel hw
  exact hT.inv.order

/-- C3.  Every node reachable from the target appears exactly once
across the two output lists combined, even with multiple paths. -/
theorem minibrew_C3 {st : Store} {l : Ledger} {rank : Nat → Nat}
    (hr : Ranked st rank) {fuel root : Nat} (hfuel : rank root < fuel)
    {b : Bool} {s : WalkState}
    (hw : walkDepTree st l fuel root emptyWalkState = some (b, s)) :
    ∀ j, Reach st root j →
      (s.alreadyInstalled ++ s.needToInstall).count j = 1 := by
  obtain ⟨-, hT⟩ := walk_from_empty hr hfuel hw
  have hInv := hT.inv
  have hnil : ∀ j : Nat, j ∉ ([] : List Nat) :=
    fun j h => absurd h (List.not_mem_nil j)
  intro j hrj
  obtain ⟨bj, hbj⟩ := Option.isSome_iff_exists.mp (hT.cover j hrj)
  rw [List.count_append]
  cases bj with
  | true =>
    have hjN : j ∈ s.needToInstall := hInv.memN j hbj (hnil j)
    have hjA : j ∉ s.alreadyInstalled := by
      intro h
      have h1 := (hInv.seenA j h).1
      rw [hbj] at h1
      exact Bool.noConfusion (Option.some.inj h1)
    rw [List.count_eq_zero.mpr hjA,
      List.count_eq_one_of_mem hInv.nodupN hjN]
  | false =>
    have hjA : j ∈ s.alreadyInstalled := hInv.memA j hbj (hnil j)
    have hjN : j ∉ s.needToInstall := by
      intro h
      have h1 := (hInv.seenN j h).1
      rw [hbj] at h1
      exact Bool.noConfusion (Option.some.inj h1)
    rw [List.count_eq_zero.mpr hjN,
      List.count_eq_one_of_mem hInv.nodupA hjA]

/-- Chain graph `a <- b <- c` (node 2 depends on 1 depends on 0) with a
ledger in which only node 0's fingerprint is stale. -/
def chainStore : Store where
  name := fun i => if i = 0 then "a" else if i = 1 then "b" else "c"
  source := fun _ => Source.git "r" "v"
  buildStep := fun i =>
    BuildStep.configureAndMake
      [if i = 0 then "f0" else if i = 1 then "f1" else "f2"]
  deps := fun i => if i = 2 then [1] else if i = 1 then [0] else []

def chainLedger : Ledger :=
  [("b", chainStore.getKey 1), ("c", chainStore.getKey 2), ("a", "stale")]

theorem chainStore_ranked : Ranked chainStore (fun i => i) := by
  intro a d hd
  show d < a
  by_cases h2 : a = 2
  · subst h2
    rw [show chainStore.deps 2 = [1] from rfl] at hd
    rcases List.mem_singleton.mp hd with rfl
    omega
  · by_cases h1 : a = 1
    · subst h1
      rw [show chainStore.deps 1 = [0] from rfl] at hd
      rcases List.mem_singleton.mp hd with rfl
      omega
    · rw [show chainStore.deps a = if a = 2 then [1] else
          if a = 1 then [0] else [] from rfl, if_neg h2, if_neg h1] at hd
      exact absurd hd (List.not_mem_nil d)

def chainWalkState : WalkState :=
  ⟨[(2, true), (1, true), (0, true), (0, false), (1, false), (2, false)],
    [], [0, 1, 2]⟩

theorem minibrew_C1_witness :
    chainWalkState.needToInstall = [0, 1, 2] ∧
    (∀ j, j ∈ chainWalkState.needToInstall ∨
        j ∈ chainWalkState.alreadyInstalled →
      (j ∈ chainWalkState.needToInstall ↔
        (isInstalled chainStore chainLedger j = false ∨
          ∃ d ∈ chainStore.deps j, d ∈ chainWalkState.needToInstall))) :=
  ⟨rfl,
    minibrew_C1 chainStore_ranked (by decide)
      (show walkDepTree chainStore chainLedger 5 2 emptyWalkState =
        some (true, chainWalkState) by decide)⟩

theorem minibrew_C2_witness :
    chainWalkState.needToInstall.indexOf 1 <
      chainWalkState.needToInstall.indexOf 2 :=
  minibrew_C2 chainStore_ranked (by decide)
    (show walkDepTree chainStore chainLedger 5 2 emptyWalkState =
      some (true, chainWalkState) by decide)
    2 (by decide) 1 (by decide) (by decide)

/-- Diamond graph: node 3 depends on 1 and 2, both of which depend
on 0; the ledger is empty. -/
def diamondStore : Store where
  name := fun i =>
    if i = 0 then "a" else if i = 1 then "b" else if i = 2 then "c" else "d"
  source := fun _ => Source.git "r" "v"
  buildStep := fun _ => BuildStep.configureAndMake []
  deps := fun i =>
    if i = 3 then [1, 2] else if i = 1 then [0] else
      if i = 2 then [0] else []

theorem diamondStore_ranked : Ranked diamondStore (fun i => i) := by
  intro a d hd
  show d < a
  by_cases h3 : a = 3
  · subst h3
    rw [show diamondStore.deps 3 = [1, 2] from rfl] at hd
    rcases List.mem_cons.mp hd with rfl | hd
    · omega
    · rcases List.mem_singleton.mp hd with rfl
      omega
  · by_cases h1 : a = 1
    · subst h1
      rw [show diamondStore.deps 1 = [0] from rfl] at hd
      rcases List.mem_singleton.mp hd with rfl
      omega
    · by_cases h2 : a = 2
      · subst h2
        rw [show diamondStore.deps 2 = [0] from rfl] at hd
        rcases List.mem_singleton.mp hd with rfl
        omega
      · rw [show diamondStore.deps a = if a = 3 then [1, 2] else
            if a = 1 then [0] else if a = 2 then [0] else [] from rfl,
          if_neg h3, if_neg h1, if_neg h2] at hd
        exact absurd hd (List.not_mem_nil d)

def diamondWalkState : WalkState :=
  ⟨[(3, true), (2, true), (2, false), (1, true), (0, true), (0, false),
    (1, false), (3, false)], [], [0, 1, 2, 3]⟩

theorem install_eq {st : Store} {fetchOk buildOk : Nat → Bool}
    {fuel root : Nat} {l : Ledger} {v : Bool} {s : WalkState}
    (hw : walkDepTree st l fuel root emptyWalkState = some (v, s)) :
    install st fetchOk buildOk fuel root l =
      some (s, processNeedList st fetchOk buildOk s.needToInstall l) := by
  simp only [install, hw]

/-- C4.  If a run of `install` succeeds completely, a second run on the
resulting ledger (same graph, same descriptors) performs no fetch and no
build: its walk classifies every reachable node `AlreadyInstalled`.
Node names must determine fingerprints among reachable nodes (names are
the graph's primary keys). -/
theorem minibrew_C4 {st : Store} {l : Ledger} {rank : Nat → Nat}
    (hr : Ranked st rank) {fetchOk buildOk : Nat → Bool} {fuel root : Nat}
    (hfuel : rank root < fuel)
    (hnames : ∀ p q, Reach st root p → Reach st root q →
      st.name p = st.name q → st.getKey p = st.getKey q)
    {s1 : WalkState} {f1 b1 : List Nat} {l1 : Ledger}
    (hrun1 : install st fetchOk buildOk fuel root l =
      some (s1, f1, b1, l1, true))
    {s2 : WalkState} {f2 b2 : List Nat} {l2 : Ledger} {ok2 : Bool}
    (hrun2 : install st fetchOk buildOk fuel root l1 =
      some (s2, f2, b2, l2, ok2)) :
    s2.needToInstall = [] ∧ f2 = [] ∧ b2 = [] ∧ l2 = l1 ∧ ok2 = true ∧
      (∀ j, Reach st root j → j ∈ s2.alreadyInstalled) := by
  have hnil : ∀ j : Nat, j ∉ ([] : List Nat) :=
    fun j h => absurd h (List.not_mem_nil j)
  obtain ⟨sW, hwW, hTW⟩ := (walk_sound hr fuel).1 root emptyWalkState []
    (inv_empty st l rank) (fun j hj => absurd hj (List.not_mem_nil j)) hfuel
  rw [install_eq hwW] at hrun1
  injection hrun1 with hrun1
  injection hrun1 with hs1 hrest
  obtain ⟨hAll, hf1, hb1, hl1⟩ := processNeedList_ok hrest
  have hInv := hTW.inv
  have hreachN : ∀ p ∈ sW.needToInstall, Reach st root p := fun p hp =>
    seen_reach_of_empty hTW p
      (Option.isSome_iff_exists.mpr ⟨_, (hInv.seenN p hp).1⟩)
  have hInst1 : ∀ j, Reach st root j → isInstalled st l1 j = true := by
    intro j hj
    obtain ⟨bj, hbj⟩ := Option.isSome_iff_exists.mp (hTW.cover j hj)
    have hbv := hInv.val j bj hbj (hnil j)
    rw [isInstalled_iff, hl1]
    cases bj with
    | true =>
      have hjN := hInv.memN j hbj (hnil j)
      obtain ⟨p, hpN, hpn, hget⟩ :=
        ledgerGet_updLedger_of_mem (l := l) ⟨j, hjN, rfl⟩
      rw [hget, hnames p j (hreachN p hpN) hj hpn]
    | false =>
      have hneedsF : needs st l rank j = false := hbv.symm
      have hInstL : isInstalled st l j = true := by
        have hne := needs_eq (l := l) hr j
        rw [hneedsF] at hne
        cases hInstv : isInstalled st l j with
        | true => rfl
        | false =>
          rw [hInstv] at hne
          exact Bool.noConfusion hne
      by_cases hex : ∃ p ∈ sW.needToInstall, st.name p = st.name j
      · obtain ⟨p, hpN, hpn, hget⟩ := ledgerGet_updLedger_of_mem (l := l) hex
        rw [hget, hnames p j (hreachN p hpN) hj hpn]
      · rw [ledgerGet_updLedger_of_not_mem (fun q hq hqn => hex ⟨q, hq, hqn⟩)]
        exact isInstalled_iff.mp hInstL
  have hneeds1 : ∀ j, Reach st root j → needs st l1 rank j = false := by
    have haux : ∀ n j, rank j < n → Reach st root j →
        needs st l1 rank j = false := by
      intro n
      induction n with
      | zero => intro j h; exact absurd h (Nat.not_lt_zero _)
      | succ n ih =>
        intro j hn hj
        rw [needs_eq hr j, hInst1 j hj]
        simp only [Bool.not_true, Bool.false_or]
        apply List.any_eq_false.mpr
        intro d hd hcontra
        rw [ih d (by have := hr j d hd; omega) (hj.step hd)] at hcontra
        exact Bool.noConfusion hcontra
    exact fun j hj => haux (rank j + 1) j (Nat.lt_succ_self _) hj
  obtain ⟨sW2, hwW2, hTW2⟩ := (walk_sound hr fuel).1 root emptyWalkState []
    (inv_empty st l1 rank) (fun j hj => absurd hj (List.not_mem_nil j)) hfuel
  have hInv2 := hTW2.inv
  have hN2 : sW2.needToInstall = [] := by
    rcases hemp : sW2.needToInstall with - | ⟨j, rest⟩
    · rfl
    · exfalso
      have hjN : j ∈ sW2.needToInstall := by
        rw [hemp]
        exact List.mem_cons_self j rest
      have hseen := (hInv2.seenN j hjN).1
      have hval := hInv2.val j true hseen (hnil j)
      have hjr : Reach st root j := seen_reach_of_empty hTW2 j
        (Option.isSome_iff_exists.mpr ⟨_, hseen⟩)
      rw [hneeds1 j hjr] at hval
      exact Bool.noConfusion hval
  rw [install_eq hwW2, hN2] at hrun2
  simp only [processNeedList] at hrun2
  injection hrun2 with hrun2
  injection hrun2 with hs2 hrest2
  subst hs2
  injection hrest2 with hf2 hrest2
  injection hrest2 with hb2 hrest2
  injection hrest2 with hl2 hok2
  refine ⟨hN2, hf2.symm, hb2.symm, hl2.symm, hok2.symm, ?_⟩
  intro j hj
  obtain ⟨bj, hbj⟩ := Option.isSome_iff_exists.mp (hTW2.cover j hj)
  have hbv := hInv2.val j bj hbj (hnil j)
  rw [hneeds1 j hj] at hbv
  subst hbv
  exact hInv2.memA j hbj (hnil j)

/-- Two-package graph `ffmpeg (1) -> sdl (0)` with constant descriptors
and all fetches/builds succeeding. -/
def witStore4 : Store where
  name := fun i => if i = 0 then "sdl" else "ffmpeg"
  source := fun _ => Source.git "u" "c"
  buildStep := fun _ => BuildStep.configureAndMake []
  deps := fun i => if i = 1 then [0] else []

theorem witStore4_ranked : Ranked witStore4 (fun i => i) := by
  intro a d hd
  show d < a
  by_cases h1 : a = 1
  · subst h1
    rw [show witStore4.deps 1 = [0] from rfl] at hd
    rcases List.mem_singleton.mp hd with rfl
    omega
  · rw [show witStore4.deps a = if a = 1 then [0] else [] from rfl,
      if_neg h1] at hd
    exact absurd hd (List.not_mem_nil d)

def witLedger4 : Ledger :=
  [("ffmpeg", witStore4.getKey 1), ("sdl", witStore4.getKey 0)]

def witState4 : WalkState :=
  ⟨[(1, false), (0, false), (0, false), (1, false)], [0, 1], []⟩

theorem minibrew_C4_witness :
    witState4.needToInstall = [] ∧ ([] : List Nat) = [] ∧
      ([] : List Nat) = [] ∧ witLedger4 = witLedger4 ∧ true = true ∧
      (∀ j, Reach witStore4 1 j → j ∈ witState4.alreadyInstalled) :=
  minibrew_C4 witStore4_ranked (by decide) (fun p q _ _ _ => rfl)
    (show install witStore4 (fun _ => true) (fun _ => true) 5 1 [] =
      some (⟨[(1, true), (0, true), (0, false), (1, false)], [], [0, 1]⟩,
        [0, 1], [0, 1], witLedger4, true) by rfl)
    (show install witStore4 (fun _ => true) (fun _ => true) 5 1 witLedger4 =
      some (witState4, [], [], witLedger4, true) by rfl)

/-- C5.  If the first failure in the build-order list is at `fail`
(everything before it succeeds), the orchestration stops there: exactly
`pre ++ [fail]` fetches are invoked, `fail`'s build only if its fetch
succeeded, the run reports failure, the ledger gains entries for exactly
`pre` (names not among `pre`'s — in particular the failed package's own
entry when its name is fresh — are untouched), and no node after `fail`
is fetched or built. -/
theorem minibrew_C5 {st : Store} {l : Ledger} {rank : Nat → Nat}
    (hr : Ranked st rank) {fetchOk buildOk : Nat → Bool} {fuel root : Nat}
    (hfuel : rank root < fuel)
    {s : WalkState} {f b : List Nat} {l' : Ledger} {ok : Bool}
    (hrun : install st fetchOk buildOk fuel root l = some (s, f, b, l', ok))
    {pre : List Nat} {fail : Nat} {post : List Nat}
    (hsplit : s.needToInstall = pre ++ fail :: post)
    (hpre : ∀ p ∈ pre, fetchOk p = true ∧ buildOk p = true)
    (hfail : ¬(fetchOk fail = true ∧ buildOk fail = true)) :
    f = pre ++ [fail] ∧
    b = pre ++ (if fetchOk fail = true then [fail] else []) ∧
    ok = false ∧
    l' = updLedger st pre l ∧
    (∀ n, (∀ p ∈ pre, st.name p ≠ n) → ledgerGet l' n = ledgerGet l n) ∧
    (∀ q ∈ post, q ∉ f ∧ q ∉ b) := by
  obtain ⟨sW, hwW, hTW⟩ := (walk_sound hr fuel).1 root emptyWalkState []
    (inv_empty st l rank) (fun j hj => absurd hj (List.not_mem_nil j)) hfuel
  rw [install_eq hwW] at hrun
  injection hrun with hrun
  injection hrun with hs hrest
  subst hs
  rw [hsplit, processNeedList_split hfail pre l hpre] at hrest
  injection hrest with hf hrest
  injection hrest with hb hrest
  injection hrest with hl hok
  have hnodup := hTW.inv.nodupN
  rw [hsplit] at hnodup
  obtain ⟨-, hnodup2, hdisj⟩ := List.nodup_append.mp hnodup
  obtain ⟨hfailpost, -⟩ := List.nodup_cons.mp hnodup2
  refine ⟨hf.symm, hb.symm, hok.symm, hl.symm, ?_, ?_⟩
  · intro n hn
    rw [← hl]
    exact ledgerGet_updLedger_of_not_mem hn
  · intro q hq
    have hqpre : q ∉ pre :=
      fun hqp => hdisj hqp (List.mem_cons_of_mem fail hq)
    have hqfail : ¬ q = fail := fun he => hfailpost (he ▸ hq)
    constructor
    · rw [← hf]
      intro hmem
      rcases List.mem_append.mp hmem with h | h
      · exact hqpre h
      · exact hqfail (List.mem_singleton.mp h)
    · rw [← hb]
      intro hmem
      rcases List.mem_append.mp hmem with h | h
      · exact hqpre h
      · by_cases hff : fetchOk fail = true
        · rw [if_pos hff] at h
          exact hqfail (List.mem_singleton.mp h)
        · rw [if_neg hff] at h
          exact absurd h (List.not_mem_nil q)

/-- Chain `a (0) <- b (1) <- c (2)` where every fetch succeeds but
node 1's build fails; the ledger starts empty. -/
def witStore5 : Store where
  name := fun i => if i = 0 then "a" else if i = 1 then "b" else "c"
  source := fun _ => Source.git "u" "c"
  buildStep := fun _ => BuildStep.configureAndMake []
  deps := fun i => if i = 2 then [1] else if i = 1 then [0] else []

theorem witStore5_ranked : Ranked witStore5 (fun i => i) := by
  intro a d hd
  show d < a
  by_cases h2 : a = 2
  · subst h2
    rw [show witStore5.deps 2 = [1] from rfl] at hd
    rcases List.mem_singleton.mp hd with rfl
    omega
  · by_cases h1 : a = 1
    · subst h1
      rw [show witStore5.deps 1 = [0] from rfl] at hd
      rcases List.mem_singleton.mp hd with rfl
      omega
    · rw [show witStore5.deps a = if a = 2 then [1] else
          if a = 1 then [0] else [] from rfl, if_neg h2, if_neg h1] at hd
      exact absurd hd (List.not_mem_nil d)

def witBuildOk5 : Nat → Bool := fun i => if i = 1 then false else true

theorem minibrew_C5_witness :
    ([0, 1] : List Nat) = [0] ++ [1] ∧
    ([0, 1] : List Nat) =
      [0] ++ (if (fun _ : Nat => true) 1 = true then [1] else []) ∧
    false = false ∧
    [("a", witStore5.getKey 0)] = updLedger witStore5 [0] [] ∧
    (∀ n, (∀ p ∈ ([0] : List Nat), witStore5.name p ≠ n) →
      ledgerGet [("a", witStore5.getKey 0)] n = ledgerGet [] n) ∧
    (∀ q ∈ ([2] : List Nat), q ∉ ([0, 1] : List Nat) ∧
      q ∉ ([0, 1] : List Nat)) :=
  minibrew_C5 witStore5_ranked (by decide)
    (show install witStore5 (fun _ => true) witBuildOk5 5 2 [] =
      some (⟨[(2, true), (1, true), (0, true), (0, false), (1, false),
          (2, false)], [], [0, 1, 2]⟩,
        [0, 1], [0, 1], [("a", witStore5.getKey 0)], false) by rfl)
    (show ([0, 1, 2] : List Nat) = [0] ++ 1 :: [2] by decide)
    (by decide)
    (by decide)

theorem minibrew_C3_witness :
    (diamondWalkState.alreadyInstalled ++
      diamondWalkState.needToInstall).count 0 = 1 ∧
    diamondWalkState.needToInstall = [0, 1, 2, 3] :=
  ⟨minibrew_C3 diamondStore_ranked (by decide)
      (show walkDepTree diamondStore [] 5 3 emptyWalkState =
        some (true, diamondWalkState) by decide)
      0
      (Reach.step
        (Reach.step (Reach.refl 3) (by decide : 1 ∈ diamondStore.deps 3))
        (by decide : 0 ∈ diamondStore.deps 1)),
    rfl⟩

/-- C6.  Two `ConfigureAndMake` descriptors that differ in exactly one
configure flag (same flags elsewhere) have different keys; value-equal
build-step descriptors have equal keys; and equal source and build-step
descriptors give equal package fingerprints. -/
theorem minibrew_C6 (pre suf : List String) (a b : String) (hab : a ≠ b)
    (s1 s2 : Source) (t1 t2 : BuildStep) (hs : s1 = s2) (ht : t1 = t2) :
    BuildStep.getKey (.configureAndMake (pre ++ a :: suf)) ≠
      BuildStep.getKey (.configureAndMake (pre ++ b :: suf)) ∧
    BuildStep.getKey t1 = BuildStep.getKey t2 ∧
    packageKey s1 t1 = packageKey s2 t2 := by
  refine ⟨?_, by rw [ht], by rw [hs, ht]⟩
  intro h
  simp only [BuildStep.getKey] at h
  rw [joinComma_split, joinComma_split] at h
  apply hab
  apply string_append_cancel
    (x := "ConfigureAndMake(" ++ joinPre pre) (y := joinSuf suf ++ ")")
  simp only [String.append_assoc] at h ⊢
  exact h

theorem minibrew_C6_witness :
    BuildStep.getKey (.configureAndMake ["x"]) ≠
      BuildStep.getKey (.configureAndMake ["y"]) ∧
    BuildStep.getKey (.configureAndMake ["x"]) =
      BuildStep.getKey (.configureAndMake ["x"]) ∧
    packageKey (.git "r" "c") (.configureAndMake ["x"]) =
      packageKey (.git "r" "c") (.configureAndMake ["x"]) :=
  minibrew_C6 [] [] "x" "y" (by decide) (.git "r" "c") (.git "r" "c")
    (.configureAndMake ["x"]) (.configureAndMake ["x"]) rfl rfl

/-- C7.  Registering a package whose dependency list names an
unregistered package raises the dependency-not-found error (modeled as
`Except.error`, so no node is added and no registry is produced), while
registration with only already-registered dependency names succeeds and
binds the name to the new node. -/
theorem minibrew_C7 (r : Registry) (nm : String) (src : Source)
    (bs : BuildStep) (ds : List String) :
    ((∃ d ∈ ds, lookupMap r.packageMap d = none) →
      ∃ e, pkg r nm src bs ds = .error e) ∧
    ((∀ d ∈ ds, (lookupMap r.packageMap d).isSome) →
      ∃ r', pkg r nm src bs ds = .ok r' ∧
        lookupMap r'.packageMap nm = some r.nextId ∧
        r'.store.name r.nextId = nm ∧ r'.nextId = r.nextId + 1) := by
  constructor
  · intro h
    obtain ⟨e, he⟩ := resolveDeps_error_of_missing nm h
    exact ⟨e, by simp only [pkg, he]⟩
  · intro h
    obtain ⟨dsr, hdsr⟩ := resolveDeps_ok_of_all nm h
    have hpk : pkg r nm src bs ds = .ok
        { store :=
            { name := fun i => if i = r.nextId then nm else r.store.name i
              source := fun i =>
                if i = r.nextId then src else r.store.source i
              buildStep := fun i =>
                if i = r.nextId then bs else r.store.buildStep i
              deps := fun i =>
                if i = r.nextId then dsr else r.store.deps i }
          nextId := r.nextId + 1
          packageMap := (nm, r.nextId) :: r.packageMap } := by
      simp only [pkg, hdsr]
    refine ⟨_, hpk, ?_, ?_, rfl⟩
    · show (if nm = nm then some r.nextId else
        lookupMap r.packageMap nm) = some r.nextId
      rw [if_pos rfl]
    · show (if r.nextId = r.nextId then nm else r.store.name r.nextId) = nm
      rw [if_pos rfl]

theorem minibrew_C7_witness :
    (∃ e, pkg emptyRegistry "b" (.git "r" "c") (.configureAndMake [])
      ["sdl"] = .error e) ∧
    (∃ r', pkg emptyRegistry "a" (.git "r" "c") (.configureAndMake [])
        [] = .ok r' ∧
      lookupMap r'.packageMap "a" = some emptyRegistry.nextId ∧
      r'.store.name emptyRegistry.nextId = "a" ∧
      r'.nextId = emptyRegistry.nextId + 1) :=
  ⟨(minibrew_C7 emptyRegistry "b" (.git "r" "c") (.configureAndMake [])
      ["sdl"]).1 ⟨"sdl", List.mem_singleton_self _, rfl⟩,
    (minibrew_C7 emptyRegistry "a" (.git "r" "c") (.configureAndMake [])
      []).2 (fun d hd => absurd hd (List.not_mem_nil d))⟩

def demoSource : Source := .git "r" "c"

def demoStep : BuildStep := .configureAndMake []

/-- C8 counterexample: registering `a` and then `b` with
`deps=['a','a']` succeeds, and `b`'s dependency list holds the node of
`a` twice — duplicates are not rejected at graph construction. -/
theorem minibrew_C8_cex :
    ((pkg emptyRegistry "a" demoSource demoStep []).bind
      (fun r => pkg r "b" demoSource demoStep ["a", "a"])).map
        (fun r => r.store.deps 1) = Except.ok [0, 0] ∧
    ¬ ([0, 0] : List Nat).Nodup := by
  constructor
  · rfl
  · decide

/-- C8 (amended).  In a registry built by `pkg` registrations, every
dependency reference points to a strictly earlier-created node, so no
node's dependency list references the node itself; duplicates, however,
are not forbidden (see the counterexample). -/
theorem minibrew_C8 (r : Registry) (nm : String) (src : Source)
    (bs : BuildStep) (ds : List String) (r' : Registry)
    (hwf : RegistryWF r) (hok : pkg r nm src bs ds = .ok r') :
    RegistryWF r' ∧ ∀ i, i ∉ r'.store.deps i := by
  have hwf' : RegistryWF r' := by
    simp only [pkg] at hok
    cases hres : resolveDeps r.packageMap nm ds with
    | error e =>
      rw [hres] at hok
      exact Except.noConfusion hok
    | ok dsr =>
      rw [hres] at hok
      injection hok with hok
      subst hok
      constructor
      · intro n i h
        show i < r.nextId + 1
        change (if nm = n then some r.nextId else
          lookupMap r.packageMap n) = some i at h
        by_cases hn : nm = n
        · rw [if_pos hn] at h
          injection h with h
          omega
        · rw [if_neg hn] at h
          have := hwf.1 n i h
          omega
      · intro i d hd
        change d ∈ (if i = r.nextId then dsr else r.store.deps i) at hd
        by_cases hi : i = r.nextId
        · rw [if_pos hi] at hd
          obtain ⟨nme, -, hlook⟩ := resolveDeps_mem hres d hd
          have := hwf.1 nme d hlook
          omega
        · rw [if_neg hi] at hd
          exact hwf.2 i d hd
  exact ⟨hwf', fun i hmem => absurd (hwf'.2 i i hmem) (Nat.lt_irrefl i)⟩

def regA : Registry :=
  match pkg emptyRegistry "a" demoSource demoStep [] with
  | .ok r => r
  | .error _ => emptyRegistry

theorem minibrew_C8_witness : RegistryWF regA ∧ 0 ∉ regA.store.deps 0 :=
  ⟨(minibrew_C8 emptyRegistry "a" demoSource demoStep [] regA
      emptyRegistry_wf rfl).1,
    (minibrew_C8 emptyRegistry "a" demoSource demoStep [] regA
      emptyRegistry_wf rfl).2 0⟩

/-- C9.  Registering `nA`, then `nB` depending on `nA`, then `nA`
again: the second registration of `nA` silently replaces the
`packageMap` binding with the new node (id `r.nextId + 2`), `nB`'s node
keeps referencing the old node (id `r.nextId`), whose descriptors are
unchanged, and subsequent registrations that depend on `nA` resolve to
the new node. -/
theorem minibrew_C9 (r r1 r2 r3 : Registry) (nA nB : String)
    (hne : nB ≠ nA) (s1 s2 s3 : Source) (t1 t2 t3 : BuildStep)
    (h1 : pkg r nA s1 t1 [] = .ok r1)
    (h2 : pkg r1 nB s2 t2 [nA] = .ok r2)
    (h3 : pkg r2 nA s3 t3 [] = .ok r3) :
    lookupMap r3.packageMap nA = some (r.nextId + 2) ∧
    r.nextId + 2 ≠ r.nextId ∧
    r3.store.deps (r.nextId + 1) = [r.nextId] ∧
    r3.store.source r.nextId = s1 ∧
    r3.store.source (r.nextId + 2) = s3 ∧
    lookupMap r3.packageMap nB = some (r.nextId + 1) ∧
    (∀ (r4 : Registry) (nQ : String) (sQ : Source) (tQ : BuildStep),
      pkg r3 nQ sQ tQ [nA] = .ok r4 →
        r4.store.deps r3.nextId = [r.nextId + 2]) := by
  simp only [pkg, resolveDeps] at h1
  injection h1 with h1
  subst h1
  simp only [pkg, resolveDeps, lookupMap, eq_self_iff_true, if_true] at h2
  injection h2 with h2
  subst h2
  simp only [pkg, resolveDeps] at h3
  injection h3 with h3
  subst h3
  have hlookA : lookupMap
      ((nA, r.nextId + 1 + 1) :: (nB, r.nextId + 1) ::
        (nA, r.nextId) :: r.packageMap) nA = some (r.nextId + 1 + 1) := by
    show (if nA = nA then some (r.nextId + 1 + 1) else
      lookupMap ((nB, r.nextId + 1) :: (nA, r.nextId) :: r.packageMap) nA) =
        some (r.nextId + 1 + 1)
    rw [if_pos rfl]
  refine ⟨?_, by omega, ?_, ?_, ?_, ?_, ?_⟩
  · show lookupMap ((nA, r.nextId + 1 + 1) :: (nB, r.nextId + 1) ::
      (nA, r.nextId) :: r.packageMap) nA = some (r.nextId + 2)
    rw [hlookA]
  · show (if r.nextId + 1 = r.nextId + 1 + 1 then ([] : List Nat) else
      if r.nextId + 1 = r.nextId + 1 then [r.nextId] else
      if r.nextId + 1 = r.nextId then [] else
        r.store.deps (r.nextId + 1)) = [r.nextId]
    rw [if_neg (by omega), if_pos rfl]
  · show (if r.nextId = r.nextId + 1 + 1 then s3 else
      if r.nextId = r.nextId + 1 then s2 else
      if r.nextId = r.nextId then s1 else
        r.store.source r.nextId) = s1
    rw [if_neg (by omega), if_neg (by omega), if_pos rfl]
  · show (if r.nextId + 2 = r.nextId + 1 + 1 then s3 else
      if r.nextId + 2 = r.nextId + 1 then s2 else
      if r.nextId + 2 = r.nextId then s1 else
        r.store.source (r.nextId + 2)) = s3
    rw [if_pos (by omega)]
  · show (if nA = nB then some (r.nextId + 1 + 1) else
      if nB = nB then some (r.nextId + 1) else
      if nA = nB then some r.nextId else
        lookupMap r.packageMap nB) = some (r.nextId + 1)
    rw [if_neg (fun h => hne h.symm), if_pos rfl]
  · intro r4 nQ sQ tQ h4
    simp only [pkg, resolveDeps, hlookA] at h4
    injection h4 with h4
    subst h4
    show (if r.nextId + 1 + 1 + 1 = r.nextId + 1 + 1 + 1
      then [r.nextId + 1 + 1] else
        if r.nextId + 1 + 1 + 1 = r.nextId + 1 + 1 then [] else
        if r.nextId + 1 + 1 + 1 = r.nextId + 1 then [r.nextId] else
        if r.nextId + 1 + 1 + 1 = r.nextId then [] else
          r.store.deps (r.nextId + 1 + 1 + 1)) = [r.nextId + 2]
    rw [if_pos rfl]

def c9reg1 : Registry :=
  match pkg emptyRegistry "a" demoSource demoStep [] with
  | .ok r => r
  | .error _ => emptyRegistry

def c9reg2 : Registry :=
  match pkg c9reg1 "b" demoSource demoStep ["a"] with
  | .ok r => r
  | .error _ => emptyRegistry

def c9reg3 : Registry :=
  match pkg c9reg2 "a" (.git "r2" "c2") demoStep [] with
  | .ok r => r
  | .error _ => emptyRegistry

theorem minibrew_C9_witness :
    lookupMap c9reg3.packageMap "a" = some (emptyRegistry.nextId + 2) ∧
    emptyRegistry.nextId + 2 ≠ emptyRegistry.nextId ∧
    c9reg3.store.deps (emptyRegistry.nextId + 1) = [emptyRegistry.nextId] ∧
    c9reg3.store.source emptyRegistry.nextId = demoSource ∧
    c9reg3.store.source (emptyRegistry.nextId + 2) = .git "r2" "c2" ∧
    lookupMap c9reg3.packageMap "b" = some (emptyRegistry.nextId + 1) ∧
    (∀ (r4 : Registry) (nQ : String) (sQ : Source) (tQ : BuildStep),
      pkg c9reg3 nQ sQ tQ ["a"] = .ok r4 →
        r4.store.deps c9reg3.nextId = [emptyRegistry.nextId + 2]) :=
  minibrew_C9 emptyRegistry c9reg1 c9reg2 c9reg3 "a" "b" (by decide)
    demoSource demoSource (.git "r2" "c2") demoStep demoStep demoStep
    rfl rfl rfl

/-- C10.  The walk terminates on every finite closed package graph,
cycles included: with fuel exceeding the universe size it always
returns a result, and a node already present in `seen` — in particular
one provisionally marked in-progress — returns its cached mark without
recursing into its dependencies. -/
theorem minibrew_C10 (st : Store) (l : Ledger) (U : List Nat) (root : Nat)
    (hroot : root ∈ U) (hclosed : ∀ i ∈ U, ∀ d ∈ st.deps i, d ∈ U)
    (fuel : Nat) (hfuel : U.length < fuel) :
    (∃ b s', walkDepTree st l fuel root emptyWalkState = some (b, s')) ∧
    (∀ i s bc, lookupSeen s.seen i = some bc →
      walkDepTree st l fuel i s = some (bc, s)) := by
  constructor
  · have hcnt : countUnseen U emptyWalkState ≤ U.length :=
      List.length_filter_le _ _
    obtain ⟨b, s', hw, -, -⟩ := (walk_total hclosed fuel).1 root
      emptyWalkState hroot (by omega)
    exact ⟨b, s', hw⟩
  · intro i s bc hbc
    match fuel, hfuel with
    | fuel + 1, _ => simp [walkDepTree, hbc]

/-- Two mutually dependent packages: a dependency cycle `0 <-> 1`. -/
def cycStore : Store where
  name := fun i => if i = 0 then "a" else "b"
  source := fun _ => Source.git "r" "v"
  buildStep := fun _ => BuildStep.configureAndMake []
  deps := fun i => if i = 0 then [1] else if i = 1 then [0] else []

theorem minibrew_C10_witness :
    (walkDepTree cycStore [] 3 0 emptyWalkState).isSome = true ∧
    walkDepTree cycStore [] 3 0 ⟨[(0, false)], [], []⟩ =
      some (false, ⟨[(0, false)], [], []⟩) := by
  have h := minibrew_C10 cycStore [] [0, 1] 0 (by decide)
    (by decide) 3 (by decide)
  refine ⟨?_, h.2 0 ⟨[(0, false)], [], []⟩ false rfl⟩
  obtain ⟨b, s', hw⟩ := h.1
  rw [hw]
  rfl

end Minibrew
